import Mathlib

/-!
A verification development for a compiler middle-end operating on the Bril
teaching IR: local value numbering (lesson3/lvn.py), CFG construction
(lesson3/lesson2/build_cfg_lesson3.py), CFG linearization (lesson3/helpers.py
and lesson4/lesson3/helpers.py), the dataflow worklist solver (lesson4/DFA.py),
SSA destruction (lesson8/lesson6/from_ssa.py), SSA renaming
(lesson8/lesson6/to_ssa.py), loop-invariant code motion (lesson8/licm.py) and
trace injection (lesson12/trace_inject.py).  Each Python function used by a
claim is embedded shallowly as an executable Lean definition, mirroring the
source control flow; theorems about those definitions settle the claims.
-/

namespace LVN

/-- A Bril instruction as consumed by lvn.py: the JSON object keys that
lvn_block reads (a missing "op" key is `none`; labels carry no op).
Constant values: Python stores bools and ints in the same field, and under
Python equality/hashing True = 1 and False = 0, so both are embedded as `Int`
(comparisons fold to 1/0 exactly as CPython's bool-int identification does). -/
structure Instr where
  op : Option String := none
  dest : Option String := none
  args : List String := []
  ty : Option String := none
  value : Option Int := none
deriving DecidableEq, Repr

/-- helpers.instr_uses: the "args" list (not a set). -/
def instr_uses (i : Instr) : List String := i.args

/-- helpers.instr_def: the optional "dest". -/
def instr_def (i : Instr) : Option String := i.dest

/-- lvn.py BINARY_OPS. -/
def BINARY_OPS : List String :=
  ["add", "sub", "mul", "div", "eq", "lt", "le", "gt", "ge", "and", "or"]

/-- lvn.py UNARY_OPS. -/
def UNARY_OPS : List String := ["not"]

/-- lvn.py COMMUTATIVE_OPS. -/
def COMMUTATIVE_OPS : List String := ["add", "mul", "eq", "and", "or"]

/-- Python bool results are stored back as constants; True = 1, False = 0. -/
def pyBool (b : Bool) : Int := if b then 1 else 0

/-- lvn.py try_const_fold.  Returns `some v` for ok=True and `none` for
ok=False.  Python `//` is floor division (`Int.fdiv`); division by zero raises
and is caught, giving ok=False.  Python `and`/`or` on integers return the
first/second operand by truthiness; `not` inverts truthiness.  An argument
list that does not unpack raises ValueError, caught, giving ok=False. -/
def try_const_fold (op : String) (consts : List Int) : Option Int :=
  if op ∈ BINARY_OPS then
    match consts with
    | [a, b] =>
      if op = "add" then some (a + b)
      else if op = "sub" then some (a - b)
      else if op = "mul" then some (a * b)
      else if op = "div" then (if b = 0 then none else some (Int.fdiv a b))
      else if op = "eq" then some (pyBool (a = b))
      else if op = "lt" then some (pyBool (a < b))
      else if op = "le" then some (pyBool (a ≤ b))
      else if op = "gt" then some (pyBool (a > b))
      else if op = "ge" then some (pyBool (a ≥ b))
      else if op = "and" then some (if a = 0 then a else b)
      else if op = "or" then some (if a = 0 then b else a)
      else none
    | _ => none
  else if op ∈ UNARY_OPS then
    match consts with
    | [a] => if op = "not" then some (if a = 0 then 1 else 0) else none
    | _ => none
  else none

/-- Insertion sort of value numbers, as Python sorted(). -/
def insertSorted (n : Nat) : List Nat → List Nat
  | [] => [n]
  | m :: ms => if n ≤ m then n :: m :: ms else m :: insertSorted n ms

/-- Python sorted() on a list of value numbers. -/
def pySorted : List Nat → List Nat
  | [] => []
  | n :: ns => insertSorted n (pySorted ns)

/-- lvn.py normalize_commutative: sort vn args for commutative ops. -/
def normalize_commutative (op : String) (argNums : List Nat) :
    String × List Nat :=
  if op ∈ COMMUTATIVE_OPS then (op, pySorted argNums) else (op, argNums)

/-- Result of apply_identities: ("const", c), ("num", n) or ("key", op, nums). -/
inductive IdResult where
  | constR : Int → IdResult
  | numR : Nat → IdResult
  | keyR : String → List Nat → IdResult
deriving DecidableEq, Repr

/-- lvn.py apply_identities, applied to the (already commutativity-normalized)
vn args together with the constant list that lvn_block passes alongside.
The indexing arg_consts[0]/arg_consts[1] and arg_nums[0]/arg_nums[1] is only
well defined for two-element lists (as produced by well-formed binary
instructions); other shapes fall through to the "key" result. -/
def apply_identities (op : String) (argNums : List Nat)
    (argConsts : List (Option Int)) : IdResult :=
  match argNums, argConsts with
  | [n0, n1], [c0, c1] =>
    if op = "add" then
      if c1 = some 0 then .numR n0
      else if c0 = some 0 then .numR n1
      else .keyR op [n0, n1]
    else if op = "sub" then
      if c1 = some 0 then .numR n0 else .keyR op [n0, n1]
    else if op = "mul" then
      if c0 = some 0 ∨ c1 = some 0 then .constR 0
      else if c0 = some 1 then .numR n1
      else if c1 = some 1 then .numR n0
      else .keyR op [n0, n1]
    else if op = "and" then
      if c0 = some 0 ∨ c1 = some 0 then .constR 0
      else if c0 = some 1 then .numR n1
      else if c1 = some 1 then .numR n0
      else .keyR op [n0, n1]
    else if op = "or" then
      if c0 = some 1 ∨ c1 = some 1 then .constR 1
      else if c0 = some 0 then .numR n1
      else if c1 = some 0 then .numR n0
      else .keyR op [n0, n1]
    else .keyR op [n0, n1]
  | ns, _ => .keyR op ns

/-- Keys of the lvn_block `table` dict: ("var", name), ("const", c),
(op, n) for unary and (op, tuple(arg_nums)) for binary. -/
inductive VKey where
  | varK : String → VKey
  | constK : Option Int → VKey
  | unK : String → Nat → VKey
  | binK : String → List Nat → VKey
deriving DecidableEq, Repr

/-- The lvn_block value-numbering state: table, var2num, num2var, num2const
and the fresh-number counter.  Python dicts are embedded as association lists
with first-match lookup; an assignment conses in front (overwriting). -/
structure St where
  table : List (VKey × Nat) := []
  var2num : List (String × Nat) := []
  num2var : List (Nat × String) := []
  num2const : List (Nat × Option Int) := []
  nextNum : Nat := 1
deriving Repr

/-- lvn_block's ensure_var_number. -/
def ensure_var_number (v : String) (s : St) : Nat × St :=
  match s.var2num.lookup v with
  | some n => (n, s)
  | none =>
    let n := s.nextNum
    (n, { s with
            nextNum := n + 1,
            var2num := (v, n) :: s.var2num,
            table := (VKey.varK v, n) :: s.table,
            num2var := (n, v) :: s.num2var })

/-- lvn_block's canonical_var_of_num with a string default. -/
def canonical_var_of_num (s : St) (n : Nat) (deflt : String) : String :=
  (s.num2var.lookup n).getD deflt

/-- lvn_block's record_const. -/
def record_const (c : Option Int) (prefer : Option String) (s : St) :
    Nat × St :=
  match s.table.lookup (VKey.constK c) with
  | some n => (n, s)
  | none =>
    let n := s.nextNum
    let s := { s with nextNum := n + 1, table := (VKey.constK c, n) :: s.table }
    let s := match prefer with
             | some p => { s with num2var := (n, p) :: s.num2var }
             | none => s
    (n, { s with num2const := (n, c) :: s.num2const })

/-- num2const.get(n): None both when absent and when a const instr stored a
missing value. -/
def getConst (s : St) (n : Nat) : Option Int := (s.num2const.lookup n).join

/-- Python dict.setdefault on num2var. -/
def num2varSetdefault (s : St) (n : Nat) (v : String) : St :=
  match s.num2var.lookup n with
  | some _ => s
  | none => { s with num2var := (n, v) :: s.num2var }

/-- Map the argument variables to value numbers, constants and canonical
names, in order (the first loop over args in lvn_block). -/
def mapArgs : List String → St → (List Nat × List (Option Int) × List String) × St
  | [], s => (([], [], []), s)
  | a :: as, s =>
    let (n, s) := ensure_var_number a s
    let c := getConst s n
    let v := canonical_var_of_num s n a
    let ((ns, cs, vs), s) := mapArgs as s
    ((n :: ns, c :: cs, v :: vs), s)

/-- One iteration of the lvn_block main loop: consumes one instruction,
produces the rewritten instruction and the next state. -/
def lvn_step (s : St) (i : Instr) : St × Instr :=
  match i.op with
  | none => (s, i)
  | some op =>
    let dest := instr_def i
    let args := instr_uses i
    -- const: record constant value and keep the instruction
    match op, dest with
    | "const", some d =>
      let (n, s) := record_const i.value (some d) s
      let s := { s with var2num := (d, n) :: s.var2num }
      let s := { s with num2var := (n, d) :: s.num2var }
      (s, i)
    | _, _ =>
    -- id: copy; dest gets the source's value number
    if op = "id" ∧ dest.isSome ∧ args.length = 1 then
      let d := dest.getD ""
      let src := args.getD 0 ""
      let (n, s) := ensure_var_number src s
      let s := { s with var2num := (d, n) :: s.var2num }
      let s := num2varSetdefault s n src
      (s, i)
    else if op ∉ BINARY_OPS ∧ op ∉ UNARY_OPS then
      (s, i)
    else
      let ((argNums, argConsts, canonArgs), s) := mapArgs args s
      -- if all args are constants, try to fold
      let foldAttempt : Option Int :=
        if (op ∈ UNARY_OPS ∧ (argConsts.getD 0 none).isSome) ∨
           (op ∈ BINARY_OPS ∧ argConsts.all Option.isSome) then
          try_const_fold op
            ((if op ∈ BINARY_OPS then argConsts else argConsts.take 1).filterMap id)
        else none
      match foldAttempt, dest with
      | some val, some d =>
        let (n, s) := record_const (some val) (some d) s
        let s := { s with var2num := (d, n) :: s.var2num }
        let s := { s with num2var := (n, d) :: s.num2var }
        (s, { op := some "const", dest := some d, args := [], ty := i.ty,
              value := some val })
      | _, _ =>
        -- normalize commutative ops before identities and CSE
        let (opNorm, normNums) := normalize_commutative op argNums
        let afterId :
            Option (St × Instr) ×
              (String × List Nat × List String) :=
          if op ∈ BINARY_OPS then
            match apply_identities opNorm normNums argConsts, dest with
            | .constR c, some d =>
              let (n, s) := record_const (some c) (some d) s
              let s := { s with var2num := (d, n) :: s.var2num }
              let s := { s with num2var := (n, d) :: s.num2var }
              (some (s, { op := some "const", dest := some d, args := [],
                          ty := i.ty, value := some c }),
               (opNorm, normNums, canonArgs))
            | .numR n, some d =>
              let s := { s with var2num := (d, n) :: s.var2num }
              let rep := canonical_var_of_num s n d
              let s := num2varSetdefault s n rep
              (some (s, { op := some "id", dest := some d, args := [rep],
                          ty := i.ty, value := none }),
               (opNorm, normNums, canonArgs))
            | _, _ =>
              -- use normalized numbers for the key and for arg rewriting
              let canonArgs2 :=
                (normNums.enum.map (fun p =>
                  canonical_var_of_num s p.2 (canonArgs.getD p.1 "")))
              (none, (opNorm, normNums, canonArgs2))
          else (none, (op, argNums, canonArgs))
        match afterId with
        | (some done, _) => done
        | (none, (op2, argNums2, canonArgs2)) =>
          match dest with
          | some d =>
            let valueKey :=
              if op2 ∈ UNARY_OPS then VKey.unK op2 (argNums2.getD 0 0)
              else VKey.binK op2 argNums2
            match s.table.lookup valueKey with
            | some n =>
              let s := { s with var2num := (d, n) :: s.var2num }
              let rep := canonical_var_of_num s n d
              let s := num2varSetdefault s n rep
              (s, { op := some "id", dest := some d, args := [rep],
                    ty := i.ty, value := none })
            | none =>
              let n := s.nextNum
              let s := { s with nextNum := n + 1,
                                table := (valueKey, n) :: s.table }
              let s := { s with var2num := (d, n) :: s.var2num }
              let s := { s with num2var := (n, d) :: s.num2var }
              (s, { i with args := if canonArgs2.isEmpty then i.args
                                   else canonArgs2 })
          | none =>
            (s, { i with args := if canonArgs2.isEmpty then i.args
                                 else canonArgs2 })

/-- lvn.py lvn_block: LVN over one basic block's instruction list. -/
def lvn_block (instrs : List Instr) : List Instr :=
  (instrs.foldl (fun (acc : St × List Instr) i =>
    let (s, out) := lvn_step acc.1 i
    (s, acc.2 ++ [out])) ({}, [])).2

/-- A block in which the non-constant operand x receives value number 1
(via the copy into t), the constant zero receives value number 2, and the
final add lists the constant operand first, so that commutative
normalization reorders the vn pair (2,1) to (1,2) while the constants list
(0, None) is not reordered. -/
def identBlock : List Instr :=
  [ { op := some "id", dest := some "t", args := ["x"], ty := some "int" },
    { op := some "const", dest := some "zero", ty := some "int",
      value := some 0 },
    { op := some "add", dest := some "d", args := ["zero", "x"],
      ty := some "int" } ]

/-- A block folding a division of negative by positive constants. -/
def divNegBlock : List Instr :=
  [ { op := some "const", dest := some "a", ty := some "int",
      value := some (-7) },
    { op := some "const", dest := some "b", ty := some "int",
      value := some 2 },
    { op := some "div", dest := some "d", args := ["a", "b"],
      ty := some "int" } ]

/-- A block dividing by the constant zero. -/
def divZeroBlock : List Instr :=
  [ { op := some "const", dest := some "a", ty := some "int",
      value := some 1 },
    { op := some "const", dest := some "b", ty := some "int",
      value := some 0 },
    { op := some "div", dest := some "d", args := ["a", "b"],
      ty := some "int" } ]

end LVN

namespace TraceInject

/-- An instruction as read by trace_inject.py: either a label object or an
operation; only the keys the code inspects are modelled. -/
structure TInstr where
  label : Option String := none
  op : Option String := none
  dest : Option String := none
  value : Option Int := none
  labels : List String := []
deriving DecidableEq, Repr

/-- A Bril function: name and instruction list. -/
structure TFunc where
  name : String
  instrs : List TInstr
deriving DecidableEq, Repr

/-- A Bril program: ordered list of functions. -/
structure TProg where
  functions : List TFunc
deriving DecidableEq, Repr

/-- trace_inject.py find_func: error when absent or duplicated. -/
def find_func (funcs : List TFunc) (name : String) : Except String TFunc :=
  match funcs.filter (fun f => f.name = name) with
  | [] => .error ("no function named " ++ name ++ " found")
  | [f] => .ok f
  | _ => .error ("multiple functions named " ++ name ++ " found")

/-- trace_inject.py get_stop_index_from_meta: the "value" of the first
const instruction defining __trace_stop_index in __trace_meta_main. -/
def get_stop_index_from_meta (prog : TProg) : Option Int :=
  match find_func prog.functions "__trace_meta_main" with
  | .error _ => none
  | .ok meta =>
    (meta.instrs.find? (fun i =>
      i.op = some "const" && i.dest = some "__trace_stop_index")).bind
      (fun i => i.value)

/-- The fresh continuation label instruction. -/
def contInstr : TInstr := { label := some "__trace_continuation" }

/-- trace_inject.py inject_trace. -/
def inject_trace (prog : TProg) : Except String TProg := do
  let main ← find_func prog.functions "main"
  let trace ← find_func prog.functions "__trace_main"
  let traceBody := trace.instrs
  let stopIndex ←
    match get_stop_index_from_meta prog with
    | none => Except.error "trace metadata missing stop index; refusing to inject"
    | some n => Except.ok n
  let mainInstrs := main.instrs
  if ¬ (0 ≤ stopIndex ∧ stopIndex ≤ (mainInstrs.length : Int)) then
    Except.error "invalid stop index"
  else
    let n := stopIndex.toNat
    -- reuse an existing label at stop_index, else insert a fresh one there
    let reuse : Option String := (mainInstrs.get? n).bind (fun i => i.label)
    let mainInstrs2 :=
      match reuse with
      | some _ => mainInstrs
      | none => mainInstrs.take n ++ contInstr :: mainInstrs.drop n
    let contLabel := reuse.getD "__trace_continuation"
    let newInstrs :=
      ({ op := some "speculate" } : TInstr) ::
      traceBody ++
      ({ op := some "commit" } : TInstr) ::
      ({ op := some "jmp", labels := [contLabel] } : TInstr) ::
      ({ label := some "__trace_abort" } : TInstr) ::
      mainInstrs2
    Except.ok ⟨(prog.functions.map (fun f =>
        if f.name = "main" then { f with instrs := newInstrs } else f)).filter
      (fun f => ¬ (f.name = "__trace_main" ∨ f.name = "__trace_meta_main"))⟩

end TraceInject

namespace FromSSA

/-- An instruction as read by from_ssa.py. -/
structure SInstr where
  op : Option String := none
  dest : Option String := none
  args : List String := []
  ty : Option String := none
deriving DecidableEq, Repr

/-- A basic block of the CFG from_ssa_function operates on. -/
structure SBlock where
  name : String
  instrs : List SInstr
deriving DecidableEq, Repr

/-- Step 1 of from_ssa_function: the shadow variables, i.e. the destinations
of all get instructions (the per-shadow "sets" metadata it also gathers is
never read afterwards, so only membership matters). -/
def shadow_vars (blocks : List SBlock) : List String :=
  blocks.flatMap (fun b => b.instrs.filterMap (fun i =>
    if i.op = some "get" && i.dest.isSome then i.dest else none))

/-- Step 2 of from_ssa_function, per instruction: a set with at least two
args whose shadow variable has a get becomes a copy typed by the set's own
"type" key defaulting to "int"; malformed or unused-shadow sets are removed;
gets are removed; everything else is kept. -/
def convert_instr (shadows : List String) (i : SInstr) : Option SInstr :=
  if i.op = some "set" then
    match i.args with
    | sv :: src :: _ =>
      if sv ∈ shadows then
        some { op := some "id", dest := some sv, args := [src],
               ty := some (i.ty.getD "int") }
      else none
    | _ => none
  else if i.op = some "get" then none
  else some i

/-- The block-rewriting core of from_ssa.py from_ssa_function (the
surrounding CFG build and linearization leave block contents unchanged). -/
def from_ssa_blocks (blocks : List SBlock) : List SBlock :=
  blocks.map (fun b =>
    { b with instrs := b.instrs.filterMap (convert_instr (shadow_vars blocks)) })

/-- A one-block function holding a set whose shadow variable has no get. -/
def orphanSetBlocks : List SBlock :=
  [ { name := "B0",
      instrs := [ { op := some "set", args := ["s", "v"] } ] } ]

/-- The amended-specification transform, written directly from the amended
claim text: a set with at least two arguments whose shadow variable is the
destination of some get anywhere in the function becomes a typed copy
(the set's own type key, defaulting to "int"); any other set and every get
are removed; all other instructions are unchanged. -/
def from_ssa_spec (blocks : List SBlock) : List SBlock :=
  blocks.map (fun b =>
    { b with instrs := b.instrs.filterMap (fun i =>
        if i.op = some "set" then
          match i.args with
          | sv :: src :: _ =>
            if blocks.any (fun b2 => b2.instrs.any (fun j =>
                 j.op = some "get" && j.dest = some sv)) then
              some { op := some "id", dest := some sv, args := [src],
                     ty := some (i.ty.getD "int") }
            else none
          | _ => none
        else if i.op = some "get" then none
        else some i) })

end FromSSA

namespace BuildCfg

/-- An instruction as read by build_cfg_lesson3.py. -/
structure CInstr where
  label : Option String := none
  op : Option String := none
  labels : List String := []
deriving DecidableEq, Repr

/-- Ops that end a basic block. -/
def TERMINATORS : List String := ["br", "jmp", "ret"]

/-- build_cfg_lesson3.py is_label. -/
def is_label (i : CInstr) : Bool := i.label.isSome

/-- build_cfg_lesson3.py is_terminator (a missing op is not a terminator). -/
def is_terminator (i : CInstr) : Bool :=
  match i.op with
  | some o => o ∈ TERMINATORS
  | none => false

/-- The label→index dict (later assignments win, as in a Python dict, hence
the reverse before first-match lookup). -/
def label_to_index (instrs : List CInstr) : List (String × Nat) :=
  (instrs.enum.filterMap (fun p =>
    match p.2.label with
    | some lab => some (lab, p.1)
    | none => none)).reverse

/-- Insertion sort on indices (Python sorted). -/
def insertNat (n : Nat) : List Nat → List Nat
  | [] => [n]
  | m :: ms => if n ≤ m then n :: m :: ms else m :: insertNat n ms

/-- Python sorted() on a list of indices. -/
def sortNats : List Nat → List Nat
  | [] => []
  | n :: ns => insertNat n (sortNats ns)

/-- build_cfg_lesson3.py collect_leaders_and_labels: the sorted set of
leader indices.  Targets of br/jmp are looked up in label_to_index and
silently skipped when the label is undefined. -/
def leaders (instrs : List CInstr) : List Nat :=
  let l2i := label_to_index instrs
  let base := if instrs.isEmpty then [] else [0]
  let targets := instrs.flatMap (fun ins =>
    if ins.op = some "br" ∨ ins.op = some "jmp" then
      ins.labels.filterMap (fun lab => l2i.lookup lab)
    else [])
  let afterTerm := instrs.enum.filterMap (fun p =>
    if is_terminator p.2 ∧ p.1 + 1 < instrs.length then some (p.1 + 1) else none)
  let labelled := instrs.enum.filterMap (fun p =>
    if is_label p.2 then some p.1 else none)
  (sortNats (base ++ targets ++ afterTerm ++ labelled)).dedup

/-- A basic block: name and body (start labels stripped). -/
structure CBlock where
  name : String
  instrs : List CInstr
deriving DecidableEq, Repr

/-- The instruction segment of the bi-th block: [start, stop). -/
def blockSeg (instrs : List CInstr) (ls : List Nat) (bi : Nat) : List CInstr :=
  let start := ls.getD bi 0
  let stop := (ls.get? (bi + 1)).getD instrs.length
  (instrs.drop start).take (stop - start)

/-- The consecutive labels at the start of the bi-th block's segment. -/
def startLabels (instrs : List CInstr) (ls : List Nat) (bi : Nat) : List String :=
  ((blockSeg instrs ls bi).takeWhile is_label).filterMap (fun i => i.label)

/-- build_cfg_lesson3.py split_basic_blocks, blocks part. -/
def split_blocks (instrs : List CInstr) : List CBlock :=
  let ls := leaders instrs
  ls.enum.map (fun p =>
    let labs := startLabels instrs ls p.1
    { name := labs.headD ("B" ++ toString p.1),
      instrs := (blockSeg instrs ls p.1).dropWhile is_label })

/-- split_basic_blocks, label_to_block part: every start label of a block
maps to the block index (a dict, so later assignments win). -/
def label_to_block (instrs : List CInstr) : List (String × Nat) :=
  let ls := leaders instrs
  (ls.enum.flatMap (fun p =>
    (startLabels instrs ls p.1).map (fun lab => (lab, p.1)))).reverse

/-- build_cfg_lesson3.py block_successors: successor block indices.
Labels of a br/jmp that are not in label_to_block are silently dropped. -/
def block_successors (block : CBlock) (l2b : List (String × Nat))
    (numBlocks idx : Nat) : List Nat :=
  match block.instrs.getLast? with
  | none => if idx + 1 < numBlocks then [idx + 1] else []
  | some term =>
    if term.op = some "br" ∨ term.op = some "jmp" then
      term.labels.filterMap (fun lab => l2b.lookup lab)
    else if term.op = some "ret" then []
    else if is_terminator term then []
    else if idx + 1 < numBlocks then [idx + 1] else []

/-- The CFG record returned by build_cfg_for_function (args and type are
passed through unchanged and are not modelled). -/
structure Cfg where
  blocks : List CBlock
  entry : Option String
  edges : List (String × List String)
deriving DecidableEq, Repr

/-- build_cfg_lesson3.py build_cfg_for_function. -/
def build_cfg_for_function (instrs : List CInstr) : Cfg :=
  let blocks := split_blocks instrs
  let l2b := label_to_block instrs
  let edges := blocks.enum.map (fun p =>
    (p.2.name,
     (block_successors p.2 l2b blocks.length p.1).map (fun j =>
       (blocks.getD j { name := "", instrs := [] }).name)))
  { blocks := blocks,
    entry := (blocks.head?).map (fun b => b.name),
    edges := edges }

/-- A function whose only instruction jumps to an undefined label. -/
def undefJmpInstrs : List CInstr :=
  [ { op := some "jmp", labels := ["missing"] } ]

/-- A function with a defined self-loop label, for witnesses. -/
def selfLoopInstrs : List CInstr :=
  [ { label := some "A" }, { op := some "jmp", labels := ["A"] } ]

end BuildCfg

namespace Lin

/-- An instruction as handled by the CFG linearizers.  `extra` carries the
unknown JSON keys that flow through instructions (e.g. the "_def_id" scratch
key that reaching_defs.py annotates). -/
structure LInstr where
  label : Option String := none
  op : Option String := none
  labels : List String := []
  dest : Option String := none
  extra : List (String × String) := []
deriving DecidableEq, Repr

/-- A basic block. -/
structure LBlock where
  name : String
  instrs : List LInstr
deriving DecidableEq, Repr

/-- The CFG record the linearizers consume. -/
structure LCfg where
  name : Option String := none
  blocks : List LBlock := []
  entry : Option String := none
  edges : List (String × List String) := []
deriving DecidableEq, Repr

/-- The flat function the linearizers return (args and type are passed
through unchanged and are not modelled). -/
structure LFunc where
  name : Option String := none
  instrs : List LInstr := []
deriving DecidableEq, Repr

/-- edges.get(name, []). -/
def edgesGet (cfg : LCfg) (n : String) : List String :=
  (cfg.edges.lookup n).getD []

/-- The block names in textual order. -/
def originalOrder (cfg : LCfg) : List String := cfg.blocks.map (fun b => b.name)

/-- block_by_name[n] (a dict comprehension, so later blocks win). -/
def blockByName (cfg : LCfg) (n : String) : LBlock :=
  (((cfg.blocks.map (fun b => (b.name, b))).reverse).lookup n).getD
    { name := n, instrs := [] }

/-- The stack-based reachability loop shared by both linearizers, with the
Python stack's append/pop-at-end behaviour.  `pushOk` is the push guard
(lesson3 filters successors through block_by_name, lesson4 does not).  The
budget counts remaining first visits; it is spent only when a new name is
added to `seen`, and the initial budget of helper functions below always
exceeds the number of distinct pushable names, so the 0 branch never fires. -/
def dfsAux (cfg : LCfg) (pushOk : String → Bool) :
    Nat → List String → List String → List String
  | _, [], seen => seen
  | 0, _ :: _, seen => seen
  | budget + 1, x :: rest, seen =>
    if x ∈ seen then dfsAux cfg pushOk budget rest seen
    else
      dfsAux cfg pushOk budget
        (((edgesGet cfg x).filter pushOk).reverse ++ rest) (x :: seen)

/-- An upper bound on the number of loop iterations of the reachability
DFS: every element ever on the stack is the entry or was pushed from some
edge entry's successor list, and each entry's list is pushed at most once
(only on the first visit of its source), so the total number of pops is at
most 1 + the total successor count.  The budget is spent once per pop and
therefore never reaches 0 with a non-empty stack. -/
def dfsBudget (cfg : LCfg) : Nat :=
  1 + (cfg.edges.map (fun p => p.2.length)).sum

/-- lesson3/helpers.py reachability (pushes only names in block_by_name;
empty when the entry is missing or not a block). -/
def reachable3 (cfg : LCfg) : List String :=
  match cfg.entry with
  | none => []
  | some e =>
    if e ≠ "" ∧ e ∈ originalOrder cfg then
      dfsAux cfg (fun s => s ∈ originalOrder cfg) (dfsBudget cfg) [e] []
    else []

/-- lesson4/lesson3/helpers.py reachable_block_names (no push filter;
empty when the entry is falsy). -/
def reachable4 (cfg : LCfg) : List String :=
  match cfg.entry with
  | none => []
  | some e =>
    if e = "" then [] else dfsAux cfg (fun _ => true) (dfsBudget cfg) [e] []

/-- has_terminator(name) of both linearizers. -/
def hasTerminator (cfg : LCfg) (n : String) : Bool :=
  match (blockByName cfg n).instrs.getLast? with
  | none => false
  | some i =>
    match i.op with
    | some o => o ∈ (["br", "jmp", "ret"] : List String)
    | none => false

/-- orig_index[name] (an enumerate dict, so later indices win). -/
def origIndex (cfg : LCfg) (n : String) : Nat :=
  ((((originalOrder cfg).enum.map (fun p => (p.2, p.1))).reverse).lookup n).getD 0

/-- textual_fallthrough(name): the next block in original textual order that
is in `reach`, none if the block has a terminator. -/
def textualFallthrough (cfg : LCfg) (reach : List String) (n : String) :
    Option String :=
  if hasTerminator cfg n then none
  else ((originalOrder cfg).drop (origIndex cfg n + 1)).find? (fun m => m ∈ reach)

/-- place_chain of both linearizers: follow textual fallthrough while the
block has no terminator; the budget is spent once per placement and the
initial budget below always exceeds the number of placeable names. -/
def placeChain (cfg : LCfg) (reach : List String) :
    Nat → String → List String × List String → List String × List String
  | 0, _, st => st
  | budget + 1, b, (placed, order) =>
    if b ∈ reach ∧ ¬ b ∈ placed then
      let placed := b :: placed
      let order := order ++ [b]
      if hasTerminator cfg b then (placed, order)
      else
        match textualFallthrough cfg reach b with
        | none => (placed, order)
        | some ft =>
          if ft ∈ placed then (placed, order)
          else placeChain cfg reach budget ft (placed, order)
    else (placed, order)

/-- An upper bound on the number of placements a chain can make. -/
def chainBudget (cfg : LCfg) : Nat := cfg.blocks.length + 1

/-- The emission order shared by both linearizers: a chain from the entry,
then chains from the remaining reachable blocks in textual order. -/
def reachOrder (cfg : LCfg) (reach : List String) : List String × List String :=
  let st0 : List String × List String :=
    match cfg.entry with
    | some e => if e ∈ reach then placeChain cfg reach (chainBudget cfg) e ([], []) else ([], [])
    | none => ([], [])
  (originalOrder cfg).foldl (fun st n =>
    if n ∈ reach ∧ ¬ n ∈ st.1 then placeChain cfg reach (chainBudget cfg) n st
    else st) st0

/-- Python str.startswith, on the underlying character lists (equivalent to
String.startsWith, but reducible in the kernel). -/
def pyStartsWith (s pre : String) : Bool := pre.data.isPrefixOf s.data

/-- Strip keys beginning with an underscore from an instruction's unknown
keys. -/
def stripScratch (i : LInstr) : LInstr :=
  { i with extra := i.extra.filter (fun kv => ¬ pyStartsWith kv.1 "_") }

/-- lesson3/helpers.py emission loop: label when the block is a branch
target, then the body, then a jmp patch when the intended textual
fallthrough is not the next emitted block. -/
def emitAux3 (cfg : LCfg) (reach : List String) (targets : List String) :
    List String → List LInstr
  | [] => []
  | name :: rest =>
    (if name ∈ targets then [{ label := some name }] else []) ++
    (blockByName cfg name).instrs ++
    (if ¬ hasTerminator cfg name then
      match textualFallthrough cfg reach name with
      | some ft => if rest.head? ≠ some ft then
          [{ op := some "jmp", labels := [ft] }] else []
      | none => []
    else []) ++
    emitAux3 cfg reach targets rest

/-- lesson3/helpers.py linearize_cfg.  Only reachable blocks are placed:
the emission order never mentions an unreachable block. -/
def linearize3 (cfg : LCfg) : LFunc :=
  let reach := reachable3 cfg
  let order := (reachOrder cfg reach).2
  let targets := order.flatMap (fun src =>
    (edgesGet cfg src).filter (fun dst => dst ∈ reach))
  { name := cfg.name, instrs := emitAux3 cfg reach targets order }

/-- lesson4/lesson3/helpers.py emission loop: labels are deduplicated and
the jmp patch additionally requires the block to be reachable, so appended
unreachable tail blocks are never patched. -/
def emitAux4 (cfg : LCfg) (reach : List String) (targets : List String) :
    List String → List String → List LInstr
  | _, [] => []
  | emitted, name :: rest =>
    (if name ∈ targets ∧ ¬ name ∈ emitted then [{ label := some name }] else []) ++
    (blockByName cfg name).instrs ++
    (if ¬ hasTerminator cfg name ∧ name ∈ reach then
      match textualFallthrough cfg reach name with
      | some ft => if rest.head? ≠ some ft then
          [{ op := some "jmp", labels := [ft] }] else []
      | none => []
    else []) ++
    emitAux4 cfg reach targets
      (if name ∈ targets ∧ ¬ name ∈ emitted then name :: emitted else emitted)
      rest

/-- The fallback emission of the lesson4 linearizer when no block is
reachable: dump labels (deduplicated jump targets) and bodies in textual
order, with no jmp patches. -/
def emitFallback4 (cfg : LCfg) (targets : List String) :
    List String → List String → List LInstr
  | _, [] => []
  | emitted, name :: rest =>
    (if name ∈ targets ∧ ¬ name ∈ emitted then [{ label := some name }] else []) ++
    (blockByName cfg name).instrs ++
    emitFallback4 cfg targets
      (if name ∈ targets ∧ ¬ name ∈ emitted then name :: emitted else emitted) rest

/-- The full emission order of the lesson4 linearizer: reachable chains
first, then every block not yet placed, in textual order. -/
def order4 (cfg : LCfg) (reach : List String) : List String :=
  let st := reachOrder cfg reach
  st.2 ++ (originalOrder cfg).filter (fun n => ¬ n ∈ st.1)

/-- lesson4/lesson3/helpers.py linearize_cfg: unreachable blocks are
appended after all reachable ones. -/
def linearize4 (cfg : LCfg) : LFunc :=
  let reach := reachable4 cfg
  if reach.isEmpty then
    let targets := (originalOrder cfg).flatMap (fun src => edgesGet cfg src)
    { name := cfg.name, instrs := emitFallback4 cfg targets [] (originalOrder cfg) }
  else
    let order := order4 cfg reach
    let targets := order.flatMap (fun src => edgesGet cfg src)
    { name := cfg.name, instrs := emitAux4 cfg reach targets [] order }

/-- reaching_defs.py annotate_def_sites, annotation part: every instruction
with a destination receives the scratch key "_def_id" = var@block:index
(the universe set it also returns belongs to the ReachingDefs fact and is
not needed here). -/
def extraSet (l : List (String × String)) (k v : String) :
    List (String × String) :=
  if l.any (fun kv => kv.1 = k) then
    l.map (fun kv => if kv.1 = k then (k, v) else kv)
  else l ++ [(k, v)]

/-- The annotated CFG: _def_id written onto every defining instruction. -/
def annotate_def_sites (cfg : LCfg) : LCfg :=
  { cfg with blocks := cfg.blocks.map (fun b =>
      { b with instrs := b.instrs.enum.map (fun p =>
          match p.2.dest with
          | some d =>
            let did := d ++ "@" ++ b.name ++ ":" ++ toString p.1
            { p.2 with extra := extraSet p.2.extra "_def_id" did }
          | none => p.2) }) }

/-- Modelled from the spec: lesson3/helpers_lesson5.py (the linearizer that
licm.py, to_ssa.py and from_ssa.py emit through) is not included under
src/.  Per spec section 4.2 it follows the lesson4 linearizer (unreachable
blocks appended, label dedup, reach-guarded jmp patches) and per section 6
"scratch keys starting with _ (e.g., _def_id) must be stripped before
emission", its emission strips such keys from every emitted instruction.
Main-path emission loop of that modelled linearizer. -/
def emitAux5 (cfg : LCfg) (reach : List String) (targets : List String) :
    List String → List String → List LInstr
  | _, [] => []
  | emitted, name :: rest =>
    (if name ∈ targets ∧ ¬ name ∈ emitted then [{ label := some name }] else []) ++
    ((blockByName cfg name).instrs.map stripScratch) ++
    (if ¬ hasTerminator cfg name ∧ name ∈ reach then
      match textualFallthrough cfg reach name with
      | some ft => if rest.head? ≠ some ft then
          [{ op := some "jmp", labels := [ft] }] else []
      | none => []
    else []) ++
    emitAux5 cfg reach targets
      (if name ∈ targets ∧ ¬ name ∈ emitted then name :: emitted else emitted)
      rest

/-- Modelled from the spec: fallback emission of the missing lesson5
linearizer when no block is reachable, with scratch keys stripped. -/
def emitFallback5 (cfg : LCfg) (targets : List String) :
    List String → List String → List LInstr
  | _, [] => []
  | emitted, name :: rest =>
    (if name ∈ targets ∧ ¬ name ∈ emitted then [{ label := some name }] else []) ++
    ((blockByName cfg name).instrs.map stripScratch) ++
    emitFallback5 cfg targets
      (if name ∈ targets ∧ ¬ name ∈ emitted then name :: emitted else emitted) rest

/-- Modelled from the spec: the missing lesson5 linearize_cfg, i.e. the
lesson4 linearizer with scratch-key stripping at emission. -/
def linearize5 (cfg : LCfg) : LFunc :=
  let reach := reachable4 cfg
  if reach.isEmpty then
    let targets := (originalOrder cfg).flatMap (fun src => edgesGet cfg src)
    { name := cfg.name, instrs := emitFallback5 cfg targets [] (originalOrder cfg) }
  else
    let order := order4 cfg reach
    let targets := order.flatMap (fun src => edgesGet cfg src)
    { name := cfg.name, instrs := emitAux5 cfg reach targets [] order }

end Lin

namespace ToSSA

/-- A get instruction as built by to_ssa.py rename_variables. -/
structure GInstr where
  op : String
  dest : String
  ty : String
deriving DecidableEq, Repr

/-- to_ssa.py rename_variables, phi-name numbering loop (lines 145-148):
for every (block, var) pair of phi_nodes, bump the per-variable counter and
record the name var.k.  phi_nodes values are Python sets of strings, so
their iteration order — the `List String` here — depends on the process's
string-hash randomization. -/
def numberPhiVars (phiNodes : List (String × List String)) :
    List ((String × String) × String) :=
  (phiNodes.foldl (fun acc p =>
    p.2.foldl (fun (acc : List ((String × String) × String) × List (String × Nat)) v =>
      let k := ((acc.2.lookup v).getD 0) + 1
      (acc.1 ++ [((p.1, v), v ++ "." ++ toString k)], (v, k) :: acc.2))
      acc) ([], [])).1

/-- to_ssa.py rename_block, get-emission loop (lines 185-193): one get per
phi variable of the block, in the iteration order of the Python set
phi_vars_in_block. -/
def emitGets (phiVarNames : List ((String × String) × String))
    (blockName : String) (iterOrder : List String)
    (varTypes : String → String) : List GInstr :=
  iterOrder.map (fun v =>
    { op := "get",
      dest := (phiVarNames.lookup (blockName, v)).getD v,
      ty := varTypes v })

/-- The get instructions a block receives, as a function of the iteration
order that Python set enumeration happens to produce for its phi-variable
set. -/
def blockGetInstrs (blockName : String) (iterOrder : List String)
    (varTypes : String → String) : List GInstr :=
  emitGets (numberPhiVars [(blockName, iterOrder)]) blockName iterOrder varTypes

/-- Variable types of the two-variable example. -/
def exTypes : String → String := fun _ => "int"

end ToSSA

namespace LICM

/-- An instruction as read by licm.py's hoistable-collection loop. -/
structure HInstr where
  op : Option String := none
  dest : Option String := none
  args : List String := []
deriving DecidableEq, Repr

/-- A basic block. -/
structure HBlock where
  name : String
  instrs : List HInstr
deriving DecidableEq, Repr

/-- licm.py PURE_OPS: pure ops considered safe to hoist; div is excluded. -/
def PURE_OPS : List String :=
  ["const", "id", "add", "sub", "mul", "and", "or", "xor", "not",
   "eq", "lt", "le", "gt", "ge"]

/-- licm.py TERMINATORS. -/
def TERMINATORS : List String := ["br", "jmp", "ret"]

/-- licm.py InstrLoc. -/
structure InstrLoc where
  block : String
  index : Nat
deriving DecidableEq, Repr

/-- licm.py instr_is_pure. -/
def instr_is_pure (i : HInstr) : Bool :=
  match i.op with
  | none => false
  | some op => op ∈ PURE_OPS

/-- licm.py defs_of_var_at: reaching def ids of a variable in a fact
(a ReachingDefs fact is a set of (var, def_id) pairs; it is passed to the
collection loop as data, embedded here as a list). -/
def defs_of_var_at (fact : List (String × String)) (var : String) :
    List String :=
  fact.filterMap (fun p => if p.1 = var then some p.2 else none)

/-- The block-name parse of a def id inside the readiness loop:
did.split("@", 1) then split(":", 1); a ValueError (no separator) is caught
and leaves the block name empty. -/
def blkOfDid (did : String) : String :=
  match did.splitOn "@" with
  | [] => ""
  | [_] => ""
  | _ :: rest =>
    match (String.intercalate "@" rest).splitOn ":" with
    | [] => ""
    | [_] => ""
    | blk :: _ => blk

/-- name -> block dict over cfg blocks (later blocks win). -/
def blockLookup (blocks : List HBlock) (n : String) : Option HBlock :=
  ((blocks.map (fun b => (b.name, b))).reverse).lookup n

/-- licm.py no_other_defs_in_loop: the variable is defined at most once
inside the loop. -/
def no_other_defs_in_loop (blocks : List HBlock) (loopNodes : List String)
    (var : String) : Bool :=
  ((blocks.filter (fun b => b.name ∈ loopNodes)).flatMap (fun b =>
    b.instrs.filter (fun i => i.dest = some var))).length ≤ 1

/-- licm.py block_dominates_all, with the dominator sets (computed by the
dominance pass) passed in as data. -/
def block_dominates_all (domSets : List (String × List String))
    (blk : String) (targets : List String) : Bool :=
  targets.all (fun t => blk ∈ (domSets.lookup t).getD [])

/-- The per-argument operand-readiness loop of licm_function: every
reaching definition of the argument is outside the loop, or there is
exactly one def-mapped inside definition and the last parsed inside
definition is already hoistable.  `defMap` is licm.py annotate_def_map's
def-id -> location dict. -/
def operand_ready (loopNodes : List String)
    (defMap : List (String × InstrLoc)) (hoistable : List InstrLoc)
    (fact : List (String × String)) (args : List String) : Bool :=
  args.all (fun x =>
    let defs := defs_of_var_at fact x
    if defs.isEmpty then true
    else
      let insideParsed := defs.filter (fun did => blkOfDid did ∈ loopNodes)
      if insideParsed.isEmpty then true  -- all reaching defs outside
      else
        let defInside : Option InstrLoc :=
          match insideParsed.getLast? with
          | none => none
          | some did => defMap.lookup did
        let insideCnt := (defs.filter (fun did =>
          match defMap.lookup did with
          | some l => l.block ∈ loopNodes
          | none => false)).length
        if insideCnt = 1 then
          match defInside with
          | some l => l ∈ hoistable
          | none => false
        else false)

/-- One pass of licm_function's fixed-point loop collecting hoistable
invariants: scan the loop blocks (in the iteration order `loopIter` the
Python set `loop_nodes` happens to produce) and add each candidate location
that passes every guard: not a terminator, has a destination, pure opcode,
per-instruction reaching fact available, operands ready, unique def in the
loop, and the block dominates every loop exit. -/
def collect_pass (blocks : List HBlock) (loopNodes loopIter : List String)
    (domSets : List (String × List String)) (defMap : List (String × InstrLoc))
    (facts : String → List (List (String × String))) (exits : List String)
    (hoistable : List InstrLoc) : List InstrLoc :=
  loopIter.foldl (fun h bname =>
    match blockLookup blocks bname with
    | none => h
    | some b =>
      b.instrs.enum.foldl (fun h p =>
        let i := p.1
        let ins := p.2
        if (match ins.op with
            | some o => decide (o ∈ TERMINATORS)
            | none => false) then h
        else
          match ins.dest with
          | none => h
          | some dest =>
            if ¬ instr_is_pure ins then h
            else
              let instFacts := facts bname
              if i ≥ instFacts.length then h
              else
                let fact := instFacts.getD i []
                if ¬ operand_ready loopNodes defMap h fact ins.args then h
                else if ¬ no_other_defs_in_loop blocks loopNodes dest then h
                else if ¬ block_dominates_all domSets bname exits then h
                else
                  let loc : InstrLoc := ⟨bname, i⟩
                  if loc ∈ h then h else h ++ [loc]) h) hoistable

/-- licm_function's while-changed fixed point over collect_pass. -/
def hoist_fix (blocks : List HBlock) (loopNodes loopIter : List String)
    (domSets : List (String × List String)) (defMap : List (String × InstrLoc))
    (facts : String → List (List (String × String))) (exits : List String) :
    Nat → List InstrLoc → List InstrLoc
  | 0, h => h
  | fuel + 1, h =>
    let h2 := collect_pass blocks loopNodes loopIter domSets defMap facts exits h
    if h2 = h then h
    else hoist_fix blocks loopNodes loopIter domSets defMap facts exits fuel h2

/-- A loop body with a single pure invariant instruction, for the witness. -/
def exBlocks : List HBlock :=
  [ { name := "H",
      instrs := [ { op := some "add", dest := some "t", args := ["a", "b"] } ] } ]

/-- Empty reaching facts for the witness block. -/
def exFacts : String → List (List (String × String)) := fun _ => [[]]

end LICM

namespace Dataflow

/-- The DFA.run solver state in either direction.  `aF` holds the facts the
solver recomputes by meeting the neighbours (block in-facts in forward mode,
block out-facts in backward mode), `bF` the facts obtained by running the
per-instruction transfers (out-facts forward, in-facts backward), and
`queue` the FIFO worklist of block indices (popped at the left, appended at
the right).  The per-instruction fact lists DFA.run also records never feed
back into the iteration and are omitted. -/
structure State (n : Nat) (L : Type) where
  aF : Fin n → L
  bF : Fin n → L
  queue : List (Fin n)

/-- DFA.run meet_many: fold merge over the values starting from top. -/
def meetMany {L : Type} (merge : L → L → L) (top : L) (xs : List L) : L :=
  xs.foldl merge top

/-- The composite transfer of one block: the per-instruction transfer
functions applied in sequence (forward order for forward mode, reversed
instruction order for backward mode — either way a list of functions). -/
def applyTransfers {L : Type} (ts : List (L → L)) (x : L) : L :=
  ts.foldl (fun a f => f a) x

/-- One iteration of the DFA.run while loop.  `dep b` are the blocks whose
bF-facts are met to recompute aF (predecessors forward, successors
backward); `nbr b` are the blocks enqueued when b's facts change
(successors forward, predecessors backward).  A block with no dependencies
keeps its current aF-fact. -/
def step {n : Nat} {L : Type} [DecidableEq L] (merge : L → L → L) (top : L)
    (ts : Fin n → List (L → L)) (dep nbr : Fin n → List (Fin n))
    (s : State n L) : State n L :=
  match s.queue with
  | [] => s
  | b :: rest =>
    let newA := if (dep b).isEmpty then s.aF b
                else meetMany merge top ((dep b).map s.bF)
    let newB := applyTransfers (ts b) newA
    if newA = s.aF b ∧ newB = s.bF b then
      { s with queue := rest }
    else
      { aF := Function.update s.aF b newA,
        bF := Function.update s.bF b newB,
        queue := rest ++ nbr b }

/-- Iterate the solver loop k times. -/
def runFor {n : Nat} {L : Type} [DecidableEq L] (merge : L → L → L) (top : L)
    (ts : Fin n → List (L → L)) (dep nbr : Fin n → List (Fin n)) :
    Nat → State n L → State n L
  | 0, s => s
  | k + 1, s => runFor merge top ts dep nbr k (step merge top ts dep nbr s)

/-- The merge-induced order: x is at or below y when merging y into x is
absorbed. -/
def fle {L : Type} (merge : L → L → L) (x y : L) : Prop := merge x y = x

/-- A block is broken when it has dependencies and its aF-fact is not yet
above the meet of its dependencies' bF-facts (possible only for seeded
blocks before their first processing). -/
def brokenB {n : Nat} {L : Type} [DecidableEq L] (merge : L → L → L) (top : L)
    (dep : Fin n → List (Fin n)) (s : State n L) (b : Fin n) : Prop :=
  ¬ (dep b).isEmpty ∧
    ¬ fle merge (meetMany merge top ((dep b).map s.bF)) (s.aF b)

/-- Decidability of brokenness, for counting. -/
instance {n : Nat} {L : Type} [DecidableEq L] (merge : L → L → L) (top : L)
    (dep : Fin n → List (Fin n)) (s : State n L) (b : Fin n) :
    Decidable (brokenB merge top dep s b) := by
  unfold brokenB fle
  infer_instance

/-- The number of broken blocks. -/
def brokenCount {n : Nat} {L : Type} [DecidableEq L] (merge : L → L → L)
    (top : L) (dep : Fin n → List (Fin n)) (s : State n L) : Nat :=
  (Finset.univ.filter (fun b => brokenB merge top dep s b)).card

/-- The total rank of all facts, for the descending-chain measure. -/
def rankSum {n : Nat} {L : Type} (rank : L → Nat) (s : State n L) : Nat :=
  (∑ b : Fin n, rank (s.aF b)) + (∑ b : Fin n, rank (s.bF b))

/-- The solver invariant: every block's bF-fact is at or above the transfer
of its aF-fact, and a broken block's bF-fact still has its initial top
value (it has never been processed). -/
def Inv {n : Nat} {L : Type} [DecidableEq L] (merge : L → L → L) (top : L)
    (ts : Fin n → List (L → L)) (dep : Fin n → List (Fin n))
    (s : State n L) : Prop :=
  ∀ b : Fin n,
    fle merge (applyTransfers (ts b) (s.aF b)) (s.bF b) ∧
    (brokenB merge top dep s b → s.bF b = top)

end Dataflow

namespace TraceInject

/-- Main instructions of the witness program (no label at index 1). -/
def exMainInstrs : List TInstr :=
  [ { op := some "const", dest := some "v", value := some 3 },
    { op := some "print" } ]

/-- Trace body of the witness program. -/
def exTraceInstrs : List TInstr :=
  [ { op := some "guard", labels := ["__trace_abort"] } ]

/-- A program with main, __trace_main and __trace_meta_main carrying stop
index 1. -/
def exProg : TProg :=
  ⟨[ ⟨"main", exMainInstrs⟩,
     ⟨"__trace_main", exTraceInstrs⟩,
     ⟨"__trace_meta_main",
      [ { op := some "const", dest := some "__trace_stop_index",
          value := some 1 } ]⟩ ]⟩

/-- The main body shape the claim describes: speculate; the trace body;
commit; jmp to the continuation label (the label already at position N when
one exists, else the fresh __trace_continuation inserted at position N);
the __trace_abort label; then the main body (with the inserted label when
none was present). -/
def claimedMainBody (mainF traceF : TFunc) (N : Int) : List TInstr :=
  let reuse := (mainF.instrs.get? N.toNat).bind (fun i => i.label)
  ({ op := some "speculate" } : TInstr) ::
  traceF.instrs ++
  ({ op := some "commit" } : TInstr) ::
  ({ op := some "jmp", labels := [reuse.getD "__trace_continuation"] } : TInstr) ::
  ({ label := some "__trace_abort" } : TInstr) ::
  (match reuse with
   | some _ => mainF.instrs
   | none => mainF.instrs.take N.toNat ++ contInstr :: mainF.instrs.drop N.toNat)

end TraceInject

namespace Lin

/-- A CFG whose entry returns and whose second block is unreachable. -/
def dropExampleCfg : LCfg :=
  { name := some "f",
    blocks :=
      [ { name := "A", instrs := [ { op := some "ret" } ] },
        { name := "B", instrs := [ { op := some "const", dest := some "u" } ] } ],
    entry := some "A",
    edges := [("A", []), ("B", [])] }

/-- A one-block CFG whose instruction carries a non-scratch unknown key. -/
def scratchExampleCfg : LCfg :=
  { name := some "g",
    blocks :=
      [ { name := "W",
          instrs := [ { op := some "const", dest := some "x",
                        extra := [("keep", "1")] } ] } ],
    entry := some "W",
    edges := [("W", [])] }

end Lin

/-- Helper: membership in a shadow-variable list coincides with the
any-get characterization used by the amended statement. -/
theorem FromSSA.mem_shadow_vars_iff (blocks : List FromSSA.SBlock) (sv : String) :
    sv ∈ FromSSA.shadow_vars blocks ↔
      blocks.any (fun b2 => b2.instrs.any (fun j =>
        j.op = some "get" && j.dest = some sv)) = true := by
  simp only [FromSSA.shadow_vars, List.mem_flatMap, List.mem_filterMap,
    List.any_eq_true, Bool.and_eq_true, decide_eq_true_eq]
  constructor
  · rintro ⟨b, hb, i, hi, hcond⟩
    by_cases h : i.op = some "get" ∧ i.dest.isSome = true
    · rw [if_pos (by simpa using h)] at hcond
      exact ⟨b, hb, i, hi, h.1, hcond⟩
    · rw [if_neg (by simpa using h)] at hcond
      cases hcond
  · rintro ⟨b, hb, i, hi, hop, hdest⟩
    refine ⟨b, hb, i, hi, ?_⟩
    rw [if_pos]
    · exact hdest
    · simp [hop, hdest]

/-- C1: counter-evidence by evaluation.  In the block [t = id x;
zero = const 0; d = add zero x], the operand x holds value number 1 and the
constant zero value number 2 with known constant 0; commutative
normalization reorders the vn pair to (1, 2) while the constant pair
(some 0, none) keeps its original order, so apply_identities matches
"0 + x" at position 0 and returns the value number at position 1 of the
normalized pair — the constant's own value number.  LVN therefore emits
d = id zero (so d receives 0), not a copy of x as the claim states. -/
theorem lvn_identity_commutative_const_mismatch :
    LVN.lvn_block LVN.identBlock =
      [ { op := some "id", dest := some "t", args := ["x"], ty := some "int" },
        { op := some "const", dest := some "zero", ty := some "int",
          value := some 0 },
        { op := some "id", dest := some "d", args := ["zero"],
          ty := some "int" } ] ∧
    ("zero" : String) ≠ "x" := by
  constructor
  · rfl
  · decide

/-- C2: counter-evidence by evaluation.  Folding div of the constants -7
and 2 uses Python floor division and yields const d = -4, although
truncation toward zero gives -3 (Int.tdiv); division by the constant zero
is not folded and re-emits the original div. -/
theorem lvn_div_fold_floors_not_truncates :
    LVN.lvn_block LVN.divNegBlock =
      [ { op := some "const", dest := some "a", ty := some "int",
          value := some (-7) },
        { op := some "const", dest := some "b", ty := some "int",
          value := some 2 },
        { op := some "const", dest := some "d", ty := some "int",
          value := some (-4) } ] ∧
    Int.tdiv (-7) 2 = -3 ∧ ((-4 : Int) ≠ -3) ∧
    LVN.lvn_block LVN.divZeroBlock =
      [ { op := some "const", dest := some "a", ty := some "int",
          value := some 1 },
        { op := some "const", dest := some "b", ty := some "int",
          value := some 0 },
        { op := some "div", dest := some "d", args := ["a", "b"],
          ty := some "int" } ] := by
  refine ⟨rfl, by decide, by decide, rfl⟩

/-- C3: counterexample.  A set whose shadow variable has no matching get is
deleted by from_ssa's block rewrite, not replaced by a copy as the claim
states. -/
theorem from_ssa_orphan_set_deleted :
    FromSSA.from_ssa_blocks FromSSA.orphanSetBlocks =
      [ { name := "B0", instrs := [] } ] ∧
    ¬ (FromSSA.from_ssa_blocks FromSSA.orphanSetBlocks =
        [ { name := "B0",
            instrs := [ { op := some "id", dest := some "s", args := ["v"],
                          ty := some "int" } ] } ]) := by
  constructor
  · rfl
  · intro h
    simp [FromSSA.from_ssa_blocks, FromSSA.orphanSetBlocks,
      FromSSA.shadow_vars, FromSSA.convert_instr] at h

/-- C3 (amended): from_ssa's block rewrite replaces a set (with at least
two arguments) whose shadow variable is defined by some get with the copy
ws = id vs, typed by the set instruction's own type key defaulting to int;
it deletes a set whose shadow variable has no get (or a malformed set),
removes every get, and keeps every other instruction unchanged. -/
theorem from_ssa_blocks_eq_spec (blocks : List FromSSA.SBlock) :
    FromSSA.from_ssa_blocks blocks = FromSSA.from_ssa_spec blocks := by
  unfold FromSSA.from_ssa_blocks FromSSA.from_ssa_spec
  refine List.map_congr_left (fun b _ => ?_)
  congr 1
  refine List.filterMap_congr (fun i _ => ?_)
  unfold FromSSA.convert_instr
  by_cases hset : i.op = some "set"
  · simp only [if_pos hset]
    cases hargs : i.args with
    | nil => rfl
    | cons sv rest =>
      cases rest with
      | nil => rfl
      | cons src rest2 =>
        dsimp only
        by_cases hmem : sv ∈ FromSSA.shadow_vars blocks
        · rw [if_pos hmem, if_pos ((FromSSA.mem_shadow_vars_iff blocks sv).mp hmem)]
        · rw [if_neg hmem,
            if_neg (fun hc => hmem ((FromSSA.mem_shadow_vars_iff blocks sv).mpr hc))]
  · simp only [if_neg hset]

/-- C7: counter-evidence by evaluation.  The get instructions a join block
receives are emitted by iterating the Python set phi_vars_in_block, and the
phi version numbers are assigned by iterating the sets stored in phi_nodes;
both iteration orders depend on the process's string-hash randomization.
Two enumerations of the same two-element variable set — permutations of one
another — produce different instruction sequences, so byte-identical output
across runs is not guaranteed. -/
theorem to_ssa_get_emission_depends_on_set_order :
    (["x", "y"] : List String).Perm ["y", "x"] ∧
    ToSSA.blockGetInstrs "J" ["x", "y"] ToSSA.exTypes ≠
      ToSSA.blockGetInstrs "J" ["y", "x"] ToSSA.exTypes := by
  constructor
  · decide
  · decide

/-- Helper: a foldl whose step only adds elements satisfying P preserves P
for every member of the result. -/
theorem foldl_mem_preserve {α β : Type} (P : β → Prop) (l : List α)
    (f : List β → α → List β)
    (hf : ∀ acc x, x ∈ l → (∀ y ∈ acc, P y) → ∀ y ∈ f acc x, P y) :
    ∀ acc, (∀ y ∈ acc, P y) → ∀ y ∈ l.foldl f acc, P y := by
  induction l with
  | nil => intro acc hacc y hy; exact hacc y hy
  | cons x xs ih =>
    intro acc hacc y hy
    exact ih (fun a z hz => hf a z (List.mem_cons_of_mem _ hz)) (f acc x)
      (hf acc x (List.mem_cons_self _ _) hacc) y hy

/-- The hoisting-safety property of a candidate location: the instruction it
denotes exists, is pure, and has a destination. -/
def LICM.HoistSafe (blocks : List LICM.HBlock) (loc : LICM.InstrLoc) : Prop :=
  ∃ b ins, LICM.blockLookup blocks loc.block = some b ∧
    b.instrs.get? loc.index = some ins ∧
    LICM.instr_is_pure ins = true ∧ ins.dest.isSome = true

/-- Helper: one collect_pass only adds hoist-safe locations. -/
theorem LICM.collect_pass_safe (blocks : List LICM.HBlock)
    (loopNodes loopIter : List String)
    (domSets : List (String × List String))
    (defMap : List (String × LICM.InstrLoc))
    (facts : String → List (List (String × String))) (exits : List String)
    (h : List LICM.InstrLoc) (hsafe : ∀ loc ∈ h, LICM.HoistSafe blocks loc) :
    ∀ loc ∈ LICM.collect_pass blocks loopNodes loopIter domSets defMap facts
        exits h, LICM.HoistSafe blocks loc := by
  unfold LICM.collect_pass
  refine foldl_mem_preserve _ _ _ (fun acc bname _ hacc y hy => ?_) h hsafe
  revert hy
  cases hb : LICM.blockLookup blocks bname with
  | none => exact fun hy => hacc y hy
  | some b =>
    intro hy
    refine foldl_mem_preserve _ _ _ (fun acc2 p hp hacc2 z hz => ?_) acc hacc y hy
    revert hz
    dsimp only
    split
    · exact fun hz => hacc2 z hz
    · cases hdest : p.2.dest with
      | none => exact fun hz => hacc2 z hz
      | some dest =>
        dsimp only
        split
        · exact fun hz => hacc2 z hz
        · split
          · exact fun hz => hacc2 z hz
          · split
            · exact fun hz => hacc2 z hz
            · split
              · exact fun hz => hacc2 z hz
              · split
                · exact fun hz => hacc2 z hz
                · split
                  · exact fun hz => hacc2 z hz
                  · intro hz
                    rcases List.mem_append.mp hz with hz2 | hz2
                    · exact hacc2 z hz2
                    · rcases List.mem_singleton.mp hz2 with rfl
                      refine ⟨b, p.2, hb, ?_, ?_, ?_⟩
                      · rcases p with ⟨i, ins⟩
                        simpa [List.get?_eq_getElem?] using
                          List.mk_mem_enum_iff_getElem?.mp hp
                      · exact not_not.mp ‹¬¬LICM.instr_is_pure p.2 = true›
                      · simp [hdest]

/-- Helper: the while-changed fixed point preserves hoisting safety. -/
theorem LICM.hoist_fix_safe (blocks : List LICM.HBlock)
    (loopNodes loopIter : List String)
    (domSets : List (String × List String))
    (defMap : List (String × LICM.InstrLoc))
    (facts : String → List (List (String × String))) (exits : List String)
    (fuel : Nat) :
    ∀ h, (∀ loc ∈ h, LICM.HoistSafe blocks loc) →
      ∀ loc ∈ LICM.hoist_fix blocks loopNodes loopIter domSets defMap facts
          exits fuel h, LICM.HoistSafe blocks loc := by
  induction fuel with
  | zero => intro h hs loc hloc; exact hs loc hloc
  | succ fuel ih =>
    intro h hs loc hloc
    unfold LICM.hoist_fix at hloc
    by_cases heq :
        LICM.collect_pass blocks loopNodes loopIter domSets defMap facts
          exits h = h
    · rw [if_pos heq] at hloc
      exact hs loc hloc
    · rw [if_neg heq] at hloc
      exact ih _
        (LICM.collect_pass_safe blocks loopNodes loopIter domSets defMap facts
          exits h hs) loc hloc

/-- C10: every location the LICM invariant-collection fixed point gathers —
exactly the locations licm.py then moves into the preheader — denotes an
existing instruction whose opcode is in PURE_OPS (in particular not div)
and which has a destination.  This holds for any loop, exit set, dominator
sets and reaching-definition facts. -/
theorem licm_hoisted_instructions_pure (blocks : List LICM.HBlock)
    (loopNodes loopIter : List String)
    (domSets : List (String × List String))
    (defMap : List (String × LICM.InstrLoc))
    (facts : String → List (List (String × String))) (exits : List String)
    (fuel : Nat) (loc : LICM.InstrLoc)
    (hmem : loc ∈ LICM.hoist_fix blocks loopNodes loopIter domSets defMap
        facts exits fuel []) :
    ∃ b ins, LICM.blockLookup blocks loc.block = some b ∧
      b.instrs.get? loc.index = some ins ∧
      LICM.instr_is_pure ins = true ∧ ins.dest.isSome = true ∧
      ins.op ≠ some "div" := by
  obtain ⟨b, ins, hb, hget, hpure, hdest⟩ :=
    LICM.hoist_fix_safe blocks loopNodes loopIter domSets defMap facts exits
      fuel [] (by intro loc hloc; cases hloc) loc hmem
  refine ⟨b, ins, hb, hget, hpure, hdest, ?_⟩
  intro hdiv
  rw [LICM.instr_is_pure, hdiv] at hpure
  simp [LICM.PURE_OPS] at hpure

/-- C10 witness: the one-instruction loop body t = add a b is collected as
hoistable, and the theorem instantiates on it. -/
theorem licm_hoisted_instructions_pure_witness :
    ∃ b ins,
      LICM.blockLookup LICM.exBlocks
        (LICM.InstrLoc.mk "H" 0).block = some b ∧
      b.instrs.get? (LICM.InstrLoc.mk "H" 0).index = some ins ∧
      LICM.instr_is_pure ins = true ∧ ins.dest.isSome = true ∧
      ins.op ≠ some "div" :=
  licm_hoisted_instructions_pure LICM.exBlocks ["H"] ["H"] [] [] LICM.exFacts
    [] 2 ⟨"H", 0⟩ (by decide)

/-- Helper: a successful association-list lookup returns a stored value. -/
theorem lookup_mem_snd {α β : Type} [BEq α] (l : List (α × β)) (k : α)
    (v : β) (h : l.lookup k = some v) : v ∈ l.map Prod.snd := by
  induction l with
  | nil => simp [List.lookup] at h
  | cons p rest ih =>
    rcases p with ⟨a, b⟩
    rw [List.lookup] at h
    cases hbeq : (k == a) with
    | true => rw [hbeq] at h; simp at h; simp [h]
    | false => rw [hbeq] at h; simpa using Or.inr (by simpa using ih h)

/-- Helper: the index stored for any label in label_to_block is a valid
block index. -/
theorem BuildCfg.label_to_block_lt (instrs : List BuildCfg.CInstr)
    (j : Nat) (hj : j ∈ (BuildCfg.label_to_block instrs).map Prod.snd) :
    j < (BuildCfg.leaders instrs).length := by
  unfold BuildCfg.label_to_block at hj
  simp only [List.map_reverse, List.mem_reverse, List.mem_map,
    List.mem_flatMap] at hj
  obtain ⟨⟨lab, j2⟩, ⟨p, hp, hin⟩, rfl⟩ := hj
  obtain ⟨lab2, _, heq⟩ := hin
  obtain ⟨rfl, rfl⟩ : lab = lab2 ∧ j2 = p.1 := by
    cases heq; exact ⟨rfl, rfl⟩
  rcases p with ⟨i, x⟩
  have := List.mk_mem_enum_iff_getElem?.mp hp
  exact (List.getElem?_eq_some.mp this).1

/-- Helper: there are as many blocks as leaders. -/
theorem BuildCfg.split_blocks_length (instrs : List BuildCfg.CInstr) :
    (BuildCfg.split_blocks instrs).length =
      (BuildCfg.leaders instrs).length := by
  simp [BuildCfg.split_blocks]

/-- Helper: every successor index block_successors produces is a valid
block index. -/
theorem BuildCfg.block_successors_lt (instrs : List BuildCfg.CInstr)
    (block : BuildCfg.CBlock) (idx j : Nat)
    (hj : j ∈ BuildCfg.block_successors block
        (BuildCfg.label_to_block instrs)
        (BuildCfg.split_blocks instrs).length idx) :
    j < (BuildCfg.split_blocks instrs).length := by
  unfold BuildCfg.block_successors at hj
  cases hlast : block.instrs.getLast? with
  | none =>
    rw [hlast] at hj
    dsimp only at hj
    by_cases hlt : idx + 1 < (BuildCfg.split_blocks instrs).length
    · rw [if_pos hlt] at hj
      simp only [List.mem_singleton] at hj
      exact hj ▸ hlt
    · rw [if_neg hlt] at hj; cases hj
  | some term =>
    rw [hlast] at hj
    dsimp only at hj
    by_cases hbr : term.op = some "br" ∨ term.op = some "jmp"
    · rw [if_pos hbr] at hj
      rw [BuildCfg.split_blocks_length]
      refine BuildCfg.label_to_block_lt instrs j ?_
      obtain ⟨lab, _, hlook⟩ := List.mem_filterMap.mp hj
      exact lookup_mem_snd _ lab j hlook
    · rw [if_neg hbr] at hj
      by_cases hret : term.op = some "ret"
      · rw [if_pos hret] at hj; cases hj
      · rw [if_neg hret] at hj
        by_cases hterm : BuildCfg.is_terminator term = true
        · rw [if_pos hterm] at hj; cases hj
        · rw [if_neg hterm] at hj
          by_cases hlt : idx + 1 < (BuildCfg.split_blocks instrs).length
          · rw [if_pos hlt] at hj
            simp only [List.mem_singleton] at hj
            exact hj ▸ hlt
          · rw [if_neg hlt] at hj; cases hj

/-- C4: counterexample.  On a function whose only instruction is a jmp to
the undefined label "missing", CFG construction does not fail: it returns a
CFG in which the offending block simply has no successors — the edge is
silently dropped (no code path in build_cfg_lesson3.py raises). -/
theorem build_cfg_undefined_label_no_failure :
    BuildCfg.build_cfg_for_function BuildCfg.undefJmpInstrs =
      { blocks := [ { name := "B0",
                      instrs := [ { op := some "jmp",
                                    labels := ["missing"] } ] } ],
        entry := some "B0",
        edges := [("B0", [])] } ∧
    "missing" ∉ (BuildCfg.build_cfg_for_function
        BuildCfg.undefJmpInstrs).blocks.map (fun b => b.name) := by
  constructor
  · rfl
  · decide

/-- C4 (amended): CFG construction is total and silently drops br/jmp
targets that are not defined labels: every successor name in the built
edges map is the name of a block of the CFG. -/
theorem build_cfg_successors_are_blocks (instrs : List BuildCfg.CInstr)
    (p : String × List String)
    (hp : p ∈ (BuildCfg.build_cfg_for_function instrs).edges)
    (s : String) (hs : s ∈ p.2) :
    s ∈ (BuildCfg.build_cfg_for_function instrs).blocks.map
      (fun b => b.name) := by
  unfold BuildCfg.build_cfg_for_function at hp ⊢
  dsimp only at hp ⊢
  obtain ⟨q, hq, rfl⟩ := List.mem_map.mp hp
  dsimp only at hs
  obtain ⟨j, hj, rfl⟩ := List.mem_map.mp hs
  have hjlt : j < (BuildCfg.split_blocks instrs).length :=
    BuildCfg.block_successors_lt instrs q.2 q.1 j hj
  refine List.mem_map.mpr ?_
  refine ⟨(BuildCfg.split_blocks instrs).getD j { name := "", instrs := [] },
    ?_, rfl⟩
  rw [List.getD_eq_getElem?_getD, List.getElem?_eq_getElem hjlt]
  exact List.getElem_mem hjlt

/-- C4 witness: the amended theorem applied to the self-loop function,
whose single successor "A" is indeed a block name. -/
theorem build_cfg_successors_are_blocks_witness :
    "A" ∈ (BuildCfg.build_cfg_for_function
      BuildCfg.selfLoopInstrs).blocks.map (fun b => b.name) :=
  build_cfg_successors_are_blocks BuildCfg.selfLoopInstrs ("A", ["A"])
    (by decide) "A" (by decide)

/-- Helper: lookup in an association list with distinct keys finds any
stored pair. -/
theorem lookup_eq_of_mem_nodup {β : Type} (l : List (String × β))
    (hnd : (l.map Prod.fst).Nodup) (k : String) (v : β)
    (hm : (k, v) ∈ l) : l.lookup k = some v := by
  induction l with
  | nil => cases hm
  | cons p rest ih =>
    rcases p with ⟨a, b⟩
    rcases List.mem_cons.mp hm with heq | hrest
    · cases heq
      simp [List.lookup]
    · have hk : k ≠ a := by
        intro hka
        subst hka
        have : k ∈ rest.map Prod.fst := List.mem_map.mpr ⟨(k, v), hrest, rfl⟩
        exact (List.nodup_cons.mp hnd).1 this
      rw [List.lookup]
      have hbeq : (k == a) = false := by
        simpa using hk
      rw [hbeq]
      exact ih (List.nodup_cons.mp hnd).2 hrest

/-- Helper: with distinct block names, blockByName finds the block itself. -/
theorem Lin.blockByName_eq (cfg : Lin.LCfg)
    (hnodup : (Lin.originalOrder cfg).Nodup) (b : Lin.LBlock)
    (hb : b ∈ cfg.blocks) : Lin.blockByName cfg b.name = b := by
  unfold Lin.blockByName
  have hmem : (b.name, b) ∈ (cfg.blocks.map (fun x => (x.name, x))).reverse :=
    List.mem_reverse.mpr (List.mem_map.mpr ⟨b, hb, rfl⟩)
  have hkeys :
      (((cfg.blocks.map (fun x => (x.name, x))).reverse).map Prod.fst).Nodup := by
    rw [List.map_reverse, List.nodup_reverse, List.map_map]
    simpa [Lin.originalOrder, Function.comp] using hnodup
  rw [lookup_eq_of_mem_nodup _ hkeys b.name b hmem]
  rfl

/-- Helper: placeChain only grows the placed set and the order list. -/
theorem Lin.placeChain_mono (cfg : Lin.LCfg) (reach : List String) :
    ∀ (bud : Nat) (b : String) (st : List String × List String) (x : String),
      (x ∈ st.1 → x ∈ (Lin.placeChain cfg reach bud b st).1) ∧
      (x ∈ st.2 → x ∈ (Lin.placeChain cfg reach bud b st).2) := by
  intro bud
  induction bud with
  | zero => intro b st x; exact ⟨id, id⟩
  | succ bud ih =>
    intro b st x
    rcases st with ⟨placed, order⟩
    unfold Lin.placeChain
    by_cases hc : b ∈ reach ∧ ¬ b ∈ placed
    · rw [if_pos hc]
      by_cases ht : Lin.hasTerminator cfg b = true
      · simp only [ht, if_true]
        exact ⟨fun hx => List.mem_cons_of_mem _ hx,
               fun hx => List.mem_append_left _ hx⟩
      · simp only [ht, if_false, Bool.false_eq_true]
        cases hft : Lin.textualFallthrough cfg reach b with
        | none =>
          exact ⟨fun hx => List.mem_cons_of_mem _ hx,
                 fun hx => List.mem_append_left _ hx⟩
        | some ft =>
          dsimp only
          by_cases hftp : ft ∈ b :: placed
          · rw [if_pos hftp]
            exact ⟨fun hx => List.mem_cons_of_mem _ hx,
                   fun hx => List.mem_append_left _ hx⟩
          · rw [if_neg hftp]
            refine ⟨fun hx => ?_, fun hx => ?_⟩
            · exact (ih ft (b :: placed, order ++ [b]) x).1
                (List.mem_cons_of_mem _ hx)
            · exact (ih ft (b :: placed, order ++ [b]) x).2
                (List.mem_append_left _ hx)
    · rw [if_neg hc]
      exact ⟨id, id⟩

/-- Helper: placeChain places only reachable names. -/
theorem Lin.placeChain_reach (cfg : Lin.LCfg) (reach : List String) :
    ∀ (bud : Nat) (b : String) (st : List String × List String) (x : String),
      x ∈ (Lin.placeChain cfg reach bud b st).1 → x ∈ st.1 ∨ x ∈ reach := by
  intro bud
  induction bud with
  | zero => intro b st x hx; exact Or.inl hx
  | succ bud ih =>
    intro b st x hx
    rcases st with ⟨placed, order⟩
    unfold Lin.placeChain at hx
    by_cases hc : b ∈ reach ∧ ¬ b ∈ placed
    · rw [if_pos hc] at hx
      by_cases ht : Lin.hasTerminator cfg b = true
      · simp only [ht, if_true] at hx
        rcases List.mem_cons.mp hx with rfl | hx2
        · exact Or.inr hc.1
        · exact Or.inl hx2
      · simp only [ht, if_false, Bool.false_eq_true] at hx
        cases hft : Lin.textualFallthrough cfg reach b with
        | none =>
          rw [hft] at hx
          dsimp only at hx
          rcases List.mem_cons.mp hx with rfl | hx2
          · exact Or.inr hc.1
          · exact Or.inl hx2
        | some ft =>
          rw [hft] at hx
          dsimp only at hx
          by_cases hftp : ft ∈ b :: placed
          · rw [if_pos hftp] at hx
            rcases List.mem_cons.mp hx with rfl | hx2
            · exact Or.inr hc.1
            · exact Or.inl hx2
          · rw [if_neg hftp] at hx
            rcases ih ft (b :: placed, order ++ [b]) x hx with hin | hre
            · rcases List.mem_cons.mp hin with rfl | hx2
              · exact Or.inr hc.1
              · exact Or.inl hx2
            · exact Or.inr hre
    · rw [if_neg hc] at hx
      exact Or.inl hx

/-- Helper: placed set and order list always hold the same names. -/
theorem Lin.placeChain_pair (cfg : Lin.LCfg) (reach : List String) :
    ∀ (bud : Nat) (b : String) (st : List String × List String),
      (∀ x, x ∈ st.1 ↔ x ∈ st.2) →
      ∀ x, x ∈ (Lin.placeChain cfg reach bud b st).1 ↔
           x ∈ (Lin.placeChain cfg reach bud b st).2 := by
  intro bud
  induction bud with
  | zero => intro b st hst x; exact hst x
  | succ bud ih =>
    intro b st hst x
    rcases st with ⟨placed, order⟩
    unfold Lin.placeChain
    have hstep : ∀ y, y ∈ b :: placed ↔ y ∈ order ++ [b] := by
      intro y
      rw [List.mem_cons, List.mem_append, List.mem_singleton, Or.comm,
        or_congr_left (hst y)]
    by_cases hc : b ∈ reach ∧ ¬ b ∈ placed
    · rw [if_pos hc]
      by_cases ht : Lin.hasTerminator cfg b = true
      · simp only [ht, if_true]
        exact hstep x
      · simp only [ht, if_false, Bool.false_eq_true]
        cases hft : Lin.textualFallthrough cfg reach b with
        | none => exact hstep x
        | some ft =>
          dsimp only
          by_cases hftp : ft ∈ b :: placed
          · rw [if_pos hftp]
            exact hstep x
          · rw [if_neg hftp]
            exact ih ft (b :: placed, order ++ [b]) hstep x
    · rw [if_neg hc]
      exact hst x

/-- Helper: with a positive budget, the start block gets placed when it is
reachable and unplaced. -/
theorem Lin.placeChain_places (cfg : Lin.LCfg) (reach : List String)
    (bud : Nat) (b : String) (st : List String × List String)
    (hb : b ∈ reach) (hbp : ¬ b ∈ st.1) :
    b ∈ (Lin.placeChain cfg reach (bud + 1) b st).1 := by
  rcases st with ⟨placed, order⟩
  unfold Lin.placeChain
  rw [if_pos ⟨hb, hbp⟩]
  by_cases ht : Lin.hasTerminator cfg b = true
  · simp only [ht, if_true]
    exact List.mem_cons_self _ _
  · simp only [ht, if_false, Bool.false_eq_true]
    cases hft : Lin.textualFallthrough cfg reach b with
    | none => exact List.mem_cons_self _ _
    | some ft =>
      dsimp only
      by_cases hftp : ft ∈ b :: placed
      · rw [if_pos hftp]
        exact List.mem_cons_self _ _
      · rw [if_neg hftp]
        exact (Lin.placeChain_mono cfg reach bud ft (b :: placed, order ++ [b])
          b).1 (List.mem_cons_self _ _)

/-- The fold step of reachOrder. -/
def Lin.chainStep (cfg : Lin.LCfg) (reach : List String)
    (st : List String × List String) (n : String) :
    List String × List String :=
  if n ∈ reach ∧ ¬ n ∈ st.1 then
    Lin.placeChain cfg reach (Lin.chainBudget cfg) n st
  else st

/-- reachOrder written via chainStep. -/
theorem Lin.reachOrder_eq (cfg : Lin.LCfg) (reach : List String) :
    Lin.reachOrder cfg reach =
      (Lin.originalOrder cfg).foldl (Lin.chainStep cfg reach)
        (match cfg.entry with
         | some e =>
           if e ∈ reach then
             Lin.placeChain cfg reach (Lin.chainBudget cfg) e ([], [])
           else ([], [])
         | none => ([], [])) := rfl

/-- Helper: one chainStep keeps everything already placed. -/
theorem Lin.chainStep_mono (cfg : Lin.LCfg) (reach : List String)
    (st : List String × List String) (n x : String) (hx : x ∈ st.1) :
    x ∈ (Lin.chainStep cfg reach st n).1 := by
  unfold Lin.chainStep
  by_cases hc : n ∈ reach ∧ ¬ n ∈ st.1
  · rw [if_pos hc]
    exact (Lin.placeChain_mono cfg reach _ n st x).1 hx
  · rw [if_neg hc]; exact hx

/-- Helper: the chain fold keeps everything already placed. -/
theorem Lin.chainFold_mono (cfg : Lin.LCfg) (reach : List String)
    (l : List String) :
    ∀ (st : List String × List String) (x : String), x ∈ st.1 →
      x ∈ (l.foldl (Lin.chainStep cfg reach) st).1 := by
  induction l with
  | nil => intro st x hx; exact hx
  | cons a l ih =>
    intro st x hx
    simp only [List.foldl_cons]
    exact ih _ x (Lin.chainStep_mono cfg reach st a x hx)

/-- Helper: the chain fold places only reachable names. -/
theorem Lin.chainFold_reach (cfg : Lin.LCfg) (reach : List String)
    (l : List String) :
    ∀ (st : List String × List String), (∀ x ∈ st.1, x ∈ reach) →
      ∀ x ∈ (l.foldl (Lin.chainStep cfg reach) st).1, x ∈ reach := by
  induction l with
  | nil => intro st hst x hx; exact hst x hx
  | cons a l ih =>
    intro st hst x hx
    simp only [List.foldl_cons] at hx
    refine ih _ ?_ x hx
    intro y hy
    unfold Lin.chainStep at hy
    by_cases hc : a ∈ reach ∧ ¬ a ∈ st.1
    · rw [if_pos hc] at hy
      rcases Lin.placeChain_reach cfg reach _ a st y hy with h1 | h2
      · exact hst y h1
      · exact h2
    · rw [if_neg hc] at hy; exact hst y hy

/-- Helper: the chain fold keeps placed set and order equal as sets. -/
theorem Lin.chainFold_pair (cfg : Lin.LCfg) (reach : List String)
    (l : List String) :
    ∀ (st : List String × List String), (∀ x, x ∈ st.1 ↔ x ∈ st.2) →
      ∀ x, x ∈ (l.foldl (Lin.chainStep cfg reach) st).1 ↔
           x ∈ (l.foldl (Lin.chainStep cfg reach) st).2 := by
  induction l with
  | nil => intro st hst x; exact hst x
  | cons a l ih =>
    intro st hst x
    simp only [List.foldl_cons]
    refine ih _ ?_ x
    intro y
    unfold Lin.chainStep
    by_cases hc : a ∈ reach ∧ ¬ a ∈ st.1
    · rw [if_pos hc]
      exact Lin.placeChain_pair cfg reach _ a st hst y
    · rw [if_neg hc]; exact hst y

/-- Helper: the chain fold places every reachable name it processes. -/
theorem Lin.chainFold_complete (cfg : Lin.LCfg) (reach : List String)
    (l : List String) :
    ∀ (st : List String × List String) (x : String), x ∈ l → x ∈ reach →
      x ∈ (l.foldl (Lin.chainStep cfg reach) st).1 := by
  induction l with
  | nil => intro st x hx; cases hx
  | cons a l ih =>
    intro st x hx hxr
    simp only [List.foldl_cons]
    rcases List.mem_cons.mp hx with rfl | hxl
    · refine Lin.chainFold_mono cfg reach l _ x ?_
      unfold Lin.chainStep
      by_cases hin : x ∈ st.1
      · by_cases hc : x ∈ reach ∧ ¬ x ∈ st.1
        · rw [if_pos hc]
          exact (Lin.placeChain_mono cfg reach _ x st x).1 hin
        · rw [if_neg hc]; exact hin
      · rw [if_pos ⟨hxr, hin⟩]
        have hbud : Lin.chainBudget cfg = cfg.blocks.length + 1 := rfl
        rw [hbud]
        exact Lin.placeChain_places cfg reach cfg.blocks.length x st hxr hin
    · exact ih (Lin.chainStep cfg reach st a) x hxl hxr


/-- Helper: one step of the lesson4 main emission. -/
theorem Lin.emitAux4_cons (cfg : Lin.LCfg) (reach targets : List String)
    (em : List String) (a : String) (rest : List String) :
    Lin.emitAux4 cfg reach targets em (a :: rest) =
      (if a ∈ targets ∧ ¬ a ∈ em then [{ label := some a }] else []) ++
      (Lin.blockByName cfg a).instrs ++
      (if ¬ Lin.hasTerminator cfg a ∧ a ∈ reach then
        match Lin.textualFallthrough cfg reach a with
        | some ft => if rest.head? ≠ some ft then
            [{ op := some "jmp", labels := [ft] }] else []
        | none => []
      else []) ++
      Lin.emitAux4 cfg reach targets
        (if a ∈ targets ∧ ¬ a ∈ em then a :: em else em) rest := rfl

/-- Helper: one step of the fallback emission. -/
theorem Lin.emitFallback4_cons (cfg : Lin.LCfg) (targets : List String)
    (em : List String) (a : String) (rest : List String) :
    Lin.emitFallback4 cfg targets em (a :: rest) =
      (if a ∈ targets ∧ ¬ a ∈ em then [{ label := some a }] else []) ++
      (Lin.blockByName cfg a).instrs ++
      Lin.emitFallback4 cfg targets
        (if a ∈ targets ∧ ¬ a ∈ em then a :: em else em) rest := rfl

/-- Helper: the lesson4 main emission contains the body of every block in
its order list. -/
theorem Lin.emitAux4_body_sublist (cfg : Lin.LCfg) (reach targets : List String) :
    ∀ (order emitted : List String) (name : String), name ∈ order →
      (Lin.blockByName cfg name).instrs.Sublist
        (Lin.emitAux4 cfg reach targets emitted order) := by
  intro order
  induction order with
  | nil => intro emitted name h; cases h
  | cons a rest ih =>
    intro emitted name h
    rw [Lin.emitAux4_cons]
    rcases List.mem_cons.mp h with rfl | hrest
    · refine List.Sublist.trans ?_ (List.sublist_append_left _ _)
      refine List.Sublist.trans ?_ (List.sublist_append_left _ _)
      exact List.sublist_append_right _ _
    · exact List.Sublist.trans (ih _ name hrest)
        (List.sublist_append_right _ _)

/-- Helper: the fallback emission contains the body of every block in its
order list. -/
theorem Lin.emitFallback4_body_sublist (cfg : Lin.LCfg) (targets : List String) :
    ∀ (order emitted : List String) (name : String), name ∈ order →
      (Lin.blockByName cfg name).instrs.Sublist
        (Lin.emitFallback4 cfg targets emitted order) := by
  intro order
  induction order with
  | nil => intro emitted name h; cases h
  | cons a rest ih =>
    intro emitted name h
    rw [Lin.emitFallback4_cons]
    rcases List.mem_cons.mp h with rfl | hrest
    · refine List.Sublist.trans ?_ (List.sublist_append_left _ _)
      exact List.sublist_append_right _ _
    · exact List.Sublist.trans (ih _ name hrest)
        (List.sublist_append_right _ _)

/-- Helper: the main emission splits at any point of its order list. -/
theorem Lin.emitAux4_split (cfg : Lin.LCfg) (reach targets : List String) :
    ∀ (l1 l2 : List String) (em : List String),
      ∃ pre em2, Lin.emitAux4 cfg reach targets em (l1 ++ l2) =
        pre ++ Lin.emitAux4 cfg reach targets em2 l2 := by
  intro l1
  induction l1 with
  | nil => intro l2 em; exact ⟨[], em, rfl⟩
  | cons a l1 ih =>
    intro l2 em
    obtain ⟨pre2, em2, hpre2⟩ := ih l2
      (if a ∈ targets ∧ ¬ a ∈ em then a :: em else em)
    refine ⟨((if a ∈ targets ∧ ¬ a ∈ em then [{ label := some a }] else []) ++
      (Lin.blockByName cfg a).instrs ++
      (if ¬ Lin.hasTerminator cfg a ∧ a ∈ reach then
        match Lin.textualFallthrough cfg reach a with
        | some ft => if (l1 ++ l2).head? ≠ some ft then
            [{ op := some "jmp", labels := [ft] }] else []
        | none => []
      else [])) ++ pre2, em2, ?_⟩
    rw [List.cons_append, Lin.emitAux4_cons, hpre2]
    simp [List.append_assoc]

/-- Helper: on an all-unreachable order suffix the main emission never
patches a jmp: it coincides with the patch-free fallback emission. -/
theorem Lin.emitAux4_unreachable (cfg : Lin.LCfg) (reach targets : List String) :
    ∀ (u : List String) (em : List String), (∀ x ∈ u, ¬ x ∈ reach) →
      Lin.emitAux4 cfg reach targets em u =
        Lin.emitFallback4 cfg targets em u := by
  intro u
  induction u with
  | nil => intro em h; rfl
  | cons a u ih =>
    intro em h
    rw [Lin.emitAux4_cons, Lin.emitFallback4_cons]
    have hpatch : (if ¬ Lin.hasTerminator cfg a = true ∧ a ∈ reach then
        match Lin.textualFallthrough cfg reach a with
        | some ft => if u.head? ≠ some ft then
            [({ op := some "jmp", labels := [ft] } : Lin.LInstr)] else []
        | none => []
      else []) = [] := by
      rw [if_neg]
      intro hc
      exact h a (List.mem_cons_self _ _) hc.2
    rw [hpatch, ih _ (fun x hx => h x (List.mem_cons_of_mem _ hx))]
    simp

/-- Helper: the instruction list linearize4 emits, by branch. -/
theorem Lin.linearize4_instrs (cfg : Lin.LCfg) :
    (Lin.linearize4 cfg).instrs =
      if (Lin.reachable4 cfg).isEmpty then
        Lin.emitFallback4 cfg
          ((Lin.originalOrder cfg).flatMap (fun src => Lin.edgesGet cfg src))
          [] (Lin.originalOrder cfg)
      else
        Lin.emitAux4 cfg (Lin.reachable4 cfg)
          ((Lin.order4 cfg (Lin.reachable4 cfg)).flatMap
            (fun src => Lin.edgesGet cfg src))
          [] (Lin.order4 cfg (Lin.reachable4 cfg)) := by
  unfold Lin.linearize4
  by_cases h : (Lin.reachable4 cfg).isEmpty <;> simp [h]

/-- C5: counterexample.  The lesson3 linearizer drops unreachable blocks:
on a CFG whose entry block returns and whose second block B is unreachable,
its output holds only the entry's body, and B's body is not contained in
it, while B is a block of the CFG. -/
theorem linearize3_drops_unreachable_block :
    (Lin.linearize3 Lin.dropExampleCfg).instrs =
      [ { op := some "ret" } ] ∧
    ({ name := "B",
       instrs := [ { op := some "const", dest := some "u" } ] } : Lin.LBlock)
      ∈ Lin.dropExampleCfg.blocks ∧
    ¬ ([ ({ op := some "const", dest := some "u" } : Lin.LInstr) ].Sublist
        (Lin.linearize3 Lin.dropExampleCfg).instrs) := by
  refine ⟨rfl, by decide, ?_⟩
  intro h
  have : ({ op := some "const", dest := some "u" } : Lin.LInstr) ∈
      (Lin.linearize3 Lin.dropExampleCfg).instrs :=
    h.subset (List.mem_singleton_self _)
  revert this
  decide

/-- C5 (amended): the lesson4 linearizer drops no block: every block's body
is contained in the output, and the emission decomposes into a reachable
prefix followed by the unreachable blocks, which are emitted with labels
and bodies only (the patch-free fallback emitter), hence receive no
fallthrough jmp patches.  (The lesson3 linearizer, by contrast, emits
reachable blocks only, as the counterexample shows.) -/
theorem linearize4_no_block_dropped (cfg : Lin.LCfg)
    (hnodup : (Lin.originalOrder cfg).Nodup)
    (_hentry : ∀ e, cfg.entry = some e → e ∈ Lin.originalOrder cfg) :
    (∀ b ∈ cfg.blocks, b.instrs.Sublist (Lin.linearize4 cfg).instrs) ∧
    (∃ (r u targets em : List String) (pre : List Lin.LInstr),
      (∀ x ∈ r, x ∈ Lin.reachable4 cfg) ∧
      (∀ x ∈ u, ¬ x ∈ Lin.reachable4 cfg) ∧
      (∀ b ∈ cfg.blocks, b.name ∈ r ∨ b.name ∈ u) ∧
      (Lin.linearize4 cfg).instrs =
        pre ++ Lin.emitFallback4 cfg targets em u) := by
  by_cases hre : (Lin.reachable4 cfg).isEmpty
  · -- fallback branch: everything is emitted in textual order, unpatched
    have hinstr := Lin.linearize4_instrs cfg
    rw [if_pos hre] at hinstr
    have hreach_nil : Lin.reachable4 cfg = [] := List.isEmpty_iff.mp hre
    constructor
    · intro b hb
      rw [hinstr, ← Lin.blockByName_eq cfg hnodup b hb]
      exact Lin.emitFallback4_body_sublist cfg _ _ [] b.name
        (List.mem_map.mpr ⟨b, hb, rfl⟩)
    · refine ⟨[], Lin.originalOrder cfg,
        (Lin.originalOrder cfg).flatMap (fun src => Lin.edgesGet cfg src),
        [], [], ?_, ?_, ?_, ?_⟩
      · intro x hx; cases hx
      · intro x _ hxr
        rw [hreach_nil] at hxr
        cases hxr
      · intro b hb
        exact Or.inr (List.mem_map.mpr ⟨b, hb, rfl⟩)
      · simpa using hinstr
  · -- main branch: reachable chains first, then the unreachable tail
    have hinstr := Lin.linearize4_instrs cfg
    rw [if_neg hre] at hinstr
    have hst0reach : ∀ x ∈ (Lin.reachOrder cfg (Lin.reachable4 cfg)).1,
        x ∈ Lin.reachable4 cfg := by
      rw [Lin.reachOrder_eq]
      refine Lin.chainFold_reach cfg _ _ _ ?_
      cases he : cfg.entry with
      | none => intro x hx; cases hx
      | some e =>
        dsimp only
        by_cases her : e ∈ Lin.reachable4 cfg
        · rw [if_pos her]
          intro x hx
          rcases Lin.placeChain_reach cfg _ _ e ([], []) x hx with h1 | h2
          · cases h1
          · exact h2
        · rw [if_neg her]
          intro x hx; cases hx
    have hstpair : ∀ x, x ∈ (Lin.reachOrder cfg (Lin.reachable4 cfg)).1 ↔
        x ∈ (Lin.reachOrder cfg (Lin.reachable4 cfg)).2 := by
      rw [Lin.reachOrder_eq]
      refine Lin.chainFold_pair cfg _ _ _ ?_
      cases he : cfg.entry with
      | none => intro x; exact Iff.rfl
      | some e =>
        dsimp only
        by_cases her : e ∈ Lin.reachable4 cfg
        · rw [if_pos her]
          exact Lin.placeChain_pair cfg _ _ e ([], []) (fun x => Iff.rfl)
        · rw [if_neg her]
          intro x; exact Iff.rfl
    have hstcomplete : ∀ x ∈ Lin.originalOrder cfg,
        x ∈ Lin.reachable4 cfg →
        x ∈ (Lin.reachOrder cfg (Lin.reachable4 cfg)).1 := by
      rw [Lin.reachOrder_eq]
      intro x hx hxr
      exact Lin.chainFold_complete cfg _ _ _ x hx hxr
    have hmem_order : ∀ b ∈ cfg.blocks,
        b.name ∈ Lin.order4 cfg (Lin.reachable4 cfg) := by
      intro b hb
      unfold Lin.order4
      by_cases hpl : b.name ∈ (Lin.reachOrder cfg (Lin.reachable4 cfg)).1
      · exact List.mem_append_left _ ((hstpair b.name).mp hpl)
      · refine List.mem_append_right _ ?_
        refine List.mem_filter.mpr ⟨List.mem_map.mpr ⟨b, hb, rfl⟩, ?_⟩
        simpa using hpl
    constructor
    · intro b hb
      rw [hinstr, ← Lin.blockByName_eq cfg hnodup b hb]
      exact Lin.emitAux4_body_sublist cfg _ _ _ [] b.name (hmem_order b hb)
    · obtain ⟨pre, em2, hsplit⟩ := Lin.emitAux4_split cfg (Lin.reachable4 cfg)
        ((Lin.order4 cfg (Lin.reachable4 cfg)).flatMap
          (fun src => Lin.edgesGet cfg src))
        (Lin.reachOrder cfg (Lin.reachable4 cfg)).2
        ((Lin.originalOrder cfg).filter
          (fun n => ¬ n ∈ (Lin.reachOrder cfg (Lin.reachable4 cfg)).1))
        []
      have huneach : ∀ x ∈ (Lin.originalOrder cfg).filter
          (fun n => ¬ n ∈ (Lin.reachOrder cfg (Lin.reachable4 cfg)).1),
          ¬ x ∈ Lin.reachable4 cfg := by
        intro x hx hxr
        have hxo := List.mem_filter.mp hx
        have : ¬ x ∈ (Lin.reachOrder cfg (Lin.reachable4 cfg)).1 := by
          simpa using hxo.2
        exact this (hstcomplete x hxo.1 hxr)
      refine ⟨(Lin.reachOrder cfg (Lin.reachable4 cfg)).2,
        (Lin.originalOrder cfg).filter
          (fun n => ¬ n ∈ (Lin.reachOrder cfg (Lin.reachable4 cfg)).1),
        (Lin.order4 cfg (Lin.reachable4 cfg)).flatMap
          (fun src => Lin.edgesGet cfg src),
        em2, pre, ?_, huneach, ?_, ?_⟩
      · intro x hx
        exact hst0reach x ((hstpair x).mpr hx)
      · intro b hb
        have := hmem_order b hb
        unfold Lin.order4 at this
        exact List.mem_append.mp this
      · rw [hinstr]
        have horder : Lin.order4 cfg (Lin.reachable4 cfg) =
            (Lin.reachOrder cfg (Lin.reachable4 cfg)).2 ++
            (Lin.originalOrder cfg).filter
              (fun n => ¬ n ∈ (Lin.reachOrder cfg (Lin.reachable4 cfg)).1) := rfl
        rw [horder] at hsplit ⊢
        rw [hsplit, Lin.emitAux4_unreachable cfg _ _ _ em2 huneach]

/-- C5 witness: the amended theorem applied to the two-block example whose
second block is unreachable. -/
theorem linearize4_no_block_dropped_witness :
    (∀ b ∈ Lin.dropExampleCfg.blocks,
      b.instrs.Sublist (Lin.linearize4 Lin.dropExampleCfg).instrs) ∧
    (∃ (r u targets em : List String) (pre : List Lin.LInstr),
      (∀ x ∈ r, x ∈ Lin.reachable4 Lin.dropExampleCfg) ∧
      (∀ x ∈ u, ¬ x ∈ Lin.reachable4 Lin.dropExampleCfg) ∧
      (∀ b ∈ Lin.dropExampleCfg.blocks, b.name ∈ r ∨ b.name ∈ u) ∧
      (Lin.linearize4 Lin.dropExampleCfg).instrs =
        pre ++ Lin.emitFallback4 Lin.dropExampleCfg targets em u) :=
  linearize4_no_block_dropped Lin.dropExampleCfg (by decide)
    (by intro e he; cases he; decide)

/-- Helper: stripping leaves no scratch keys. -/
theorem Lin.stripScratch_no_scratch (i : Lin.LInstr) :
    ∀ kv ∈ (Lin.stripScratch i).extra, ¬ Lin.pyStartsWith kv.1 "_" = true := by
  intro kv hkv
  have := List.mem_filter.mp hkv
  simpa using this.2

/-- Helper: one step of the modelled lesson5 main emission. -/
theorem Lin.emitAux5_cons (cfg : Lin.LCfg) (reach targets : List String)
    (em : List String) (a : String) (rest : List String) :
    Lin.emitAux5 cfg reach targets em (a :: rest) =
      (if a ∈ targets ∧ ¬ a ∈ em then [{ label := some a }] else []) ++
      ((Lin.blockByName cfg a).instrs.map Lin.stripScratch) ++
      (if ¬ Lin.hasTerminator cfg a ∧ a ∈ reach then
        match Lin.textualFallthrough cfg reach a with
        | some ft => if rest.head? ≠ some ft then
            [{ op := some "jmp", labels := [ft] }] else []
        | none => []
      else []) ++
      Lin.emitAux5 cfg reach targets
        (if a ∈ targets ∧ ¬ a ∈ em then a :: em else em) rest := rfl

/-- Helper: one step of the modelled lesson5 fallback emission. -/
theorem Lin.emitFallback5_cons (cfg : Lin.LCfg) (targets : List String)
    (em : List String) (a : String) (rest : List String) :
    Lin.emitFallback5 cfg targets em (a :: rest) =
      (if a ∈ targets ∧ ¬ a ∈ em then [{ label := some a }] else []) ++
      ((Lin.blockByName cfg a).instrs.map Lin.stripScratch) ++
      Lin.emitFallback5 cfg targets
        (if a ∈ targets ∧ ¬ a ∈ em then a :: em else em) rest := rfl

/-- Helper: the modelled lesson5 main emission carries no scratch keys. -/
theorem Lin.emitAux5_no_scratch (cfg : Lin.LCfg) (reach targets : List String) :
    ∀ (order em : List String) (i : Lin.LInstr),
      i ∈ Lin.emitAux5 cfg reach targets em order →
      ∀ kv ∈ i.extra, ¬ Lin.pyStartsWith kv.1 "_" = true := by
  intro order
  induction order with
  | nil => intro em i hi; cases hi
  | cons a rest ih =>
    intro em i hi
    rw [Lin.emitAux5_cons] at hi
    rcases List.mem_append.mp hi with hi1 | hrec
    · rcases List.mem_append.mp hi1 with hi2 | hpatch
      · rcases List.mem_append.mp hi2 with hlab | hbody
        · intro kv hkv
          by_cases hc : a ∈ targets ∧ ¬ a ∈ em
          · rw [if_pos hc] at hlab
            rcases List.mem_singleton.mp hlab with rfl
            cases hkv
          · rw [if_neg hc] at hlab
            cases hlab
        · obtain ⟨j, _, rfl⟩ := List.mem_map.mp hbody
          exact Lin.stripScratch_no_scratch j
      · intro kv hkv
        by_cases hc : ¬ Lin.hasTerminator cfg a = true ∧ a ∈ reach
        · rw [if_pos hc] at hpatch
          revert hpatch
          cases Lin.textualFallthrough cfg reach a with
          | none => intro hpatch; cases hpatch
          | some ft =>
            intro hpatch
            dsimp only at hpatch
            by_cases hhd : rest.head? ≠ some ft
            · rw [if_pos hhd] at hpatch
              rcases List.mem_singleton.mp hpatch with rfl
              cases hkv
            · rw [if_neg hhd] at hpatch
              cases hpatch
        · rw [if_neg hc] at hpatch
          cases hpatch
    · exact ih _ i hrec

/-- Helper: the modelled lesson5 fallback emission carries no scratch keys. -/
theorem Lin.emitFallback5_no_scratch (cfg : Lin.LCfg) (targets : List String) :
    ∀ (order em : List String) (i : Lin.LInstr),
      i ∈ Lin.emitFallback5 cfg targets em order →
      ∀ kv ∈ i.extra, ¬ Lin.pyStartsWith kv.1 "_" = true := by
  intro order
  induction order with
  | nil => intro em i hi; cases hi
  | cons a rest ih =>
    intro em i hi
    rw [Lin.emitFallback5_cons] at hi
    rcases List.mem_append.mp hi with hi1 | hrec
    · rcases List.mem_append.mp hi1 with hlab | hbody
      · intro kv hkv
        by_cases hc : a ∈ targets ∧ ¬ a ∈ em
        · rw [if_pos hc] at hlab
          rcases List.mem_singleton.mp hlab with rfl
          cases hkv
        · rw [if_neg hc] at hlab
          cases hlab
      · obtain ⟨j, _, rfl⟩ := List.mem_map.mp hbody
        exact Lin.stripScratch_no_scratch j
    · exact ih _ i hrec

/-- C6: every instruction emitted by the modelled lesson5 linearizer — the
emission path of licm_function — is free of scratch keys beginning with an
underscore, in particular of the _def_id annotations that
annotate_def_sites writes during reaching-definitions analysis.  Stated for
the annotated form of an arbitrary CFG, which covers every CFG state LICM
can hand to emission. -/
theorem licm_emission_strips_def_id (cfg : Lin.LCfg) (i : Lin.LInstr)
    (hi : i ∈ (Lin.linearize5 (Lin.annotate_def_sites cfg)).instrs)
    (kv : String × String) (hkv : kv ∈ i.extra) :
    ¬ Lin.pyStartsWith kv.1 "_" = true := by
  revert hi
  unfold Lin.linearize5
  by_cases hre : (Lin.reachable4 (Lin.annotate_def_sites cfg)).isEmpty
  · simp only [hre, if_true]
    intro hi
    exact Lin.emitFallback5_no_scratch _ _ _ _ i hi kv hkv
  · simp only [hre, if_false, Bool.false_eq_true]
    intro hi
    exact Lin.emitAux5_no_scratch _ _ _ _ _ i hi kv hkv

/-- C6 witness: on the one-block example the annotated instruction reaches
the output with its _def_id stripped and its other unknown key kept, and
the theorem instantiates on that kept key. -/
theorem licm_emission_strips_def_id_witness :
    ¬ Lin.pyStartsWith ("keep", "1").1 "_" = true :=
  licm_emission_strips_def_id Lin.scratchExampleCfg
    { op := some "const", dest := some "x", extra := [("keep", "1")] }
    (by decide) ("keep", "1") (by decide)

/-- Helper: find_func returns the unique function the filter finds. -/
theorem TraceInject.find_func_of_filter (funcs : List TraceInject.TFunc)
    (f : TraceInject.TFunc) (name : String)
    (h : funcs.filter (fun x => x.name = name) = [f]) :
    TraceInject.find_func funcs name = Except.ok f := by
  unfold TraceInject.find_func
  rw [h]

/-- Helper: a name-absent filter stays empty through the main-replacing map
and the trace-dropping filter. -/
theorem TraceInject.filter_main_nil (l : List TraceInject.TFunc)
    (newBody : List TraceInject.TInstr)
    (h : l.filter (fun f => f.name = "main") = []) :
    (((l.map (fun f => if f.name = "main" then
        { f with instrs := newBody } else f)).filter
      (fun f => ¬ (f.name = "__trace_main" ∨ f.name = "__trace_meta_main"))).filter
        (fun f => f.name = "main")) = [] := by
  induction l with
  | nil => rfl
  | cons f rest ih =>
    by_cases hf : f.name = "main"
    · exfalso
      have : f ∈ (f :: rest).filter (fun x => x.name = "main") :=
        List.mem_filter.mpr ⟨List.mem_cons_self _ _, by simpa using hf⟩
      rw [h] at this
      cases this
    · have hrest : rest.filter (fun x => x.name = "main") = [] := by
        rw [List.filter_cons_of_neg (by simpa using hf)] at h
        exact h
      simp only [List.map_cons, if_neg hf]
      by_cases hk : ¬ (f.name = "__trace_main" ∨ f.name = "__trace_meta_main")
      · rw [List.filter_cons_of_pos (by simpa using hk),
          List.filter_cons_of_neg (by simpa using hf)]
        exact ih hrest
      · rw [List.filter_cons_of_neg (by simpa using hk)]
        exact ih hrest

/-- Helper: the replaced main is the unique main of the output functions. -/
theorem TraceInject.filter_main_out (l : List TraceInject.TFunc)
    (mainF : TraceInject.TFunc) (newBody : List TraceInject.TInstr)
    (h : l.filter (fun f => f.name = "main") = [mainF]) :
    (((l.map (fun f => if f.name = "main" then
        { f with instrs := newBody } else f)).filter
      (fun f => ¬ (f.name = "__trace_main" ∨ f.name = "__trace_meta_main"))).filter
        (fun f => f.name = "main")) = [⟨"main", newBody⟩] := by
  induction l with
  | nil => cases h
  | cons f rest ih =>
    by_cases hf : f.name = "main"
    · rcases f with ⟨fn, fi⟩
      have hfn : fn = "main" := hf
      subst hfn
      rw [List.filter_cons_of_pos (by simp)] at h
      injection h with h1 h2
      subst h1
      have hmap : (fun (f : TraceInject.TFunc) => if f.name = "main" then
          { f with instrs := newBody } else f) ⟨"main", fi⟩ =
          (⟨"main", newBody⟩ : TraceInject.TFunc) := by simp
      simp only [List.map_cons, hmap]
      rw [List.filter_cons_of_pos (by simp), List.filter_cons_of_pos (by simp)]
      rw [TraceInject.filter_main_nil rest newBody h2]
      simp
    · rw [List.filter_cons_of_neg (by simpa using hf)] at h
      simp only [List.map_cons, if_neg hf]
      by_cases hk : ¬ (f.name = "__trace_main" ∨ f.name = "__trace_meta_main")
      · rw [List.filter_cons_of_pos (by simpa using hk),
          List.filter_cons_of_neg (by simpa using hf)]
        exact ih h
      · rw [List.filter_cons_of_neg (by simpa using hk)]
        exact ih h

/-- C8: a program with a unique main, a unique __trace_main and metadata
stop index N in range: inject_trace succeeds; the output functions are the
input functions with __trace_main and __trace_meta_main removed and main's
body replaced by exactly speculate; trace body; commit; jmp cont_label;
label __trace_abort; then the original main body (with the continuation
label reused at position N when one exists, else a fresh
__trace_continuation inserted at position N); and no output function is
named __trace_main or __trace_meta_main. -/
theorem inject_trace_shape (prog : TraceInject.TProg)
    (mainF traceF : TraceInject.TFunc) (N : Int)
    (hmain : prog.functions.filter (fun f => f.name = "main") = [mainF])
    (htrace : prog.functions.filter (fun f => f.name = "__trace_main") = [traceF])
    (hstop : TraceInject.get_stop_index_from_meta prog = some N)
    (hrange : 0 ≤ N ∧ N ≤ (mainF.instrs.length : Int)) :
    ∃ fs : List TraceInject.TFunc,
      TraceInject.inject_trace prog = Except.ok ⟨fs⟩ ∧
      fs = (prog.functions.map (fun f => if f.name = "main" then
          { f with instrs := TraceInject.claimedMainBody mainF traceF N }
        else f)).filter
        (fun f => ¬ (f.name = "__trace_main" ∨ f.name = "__trace_meta_main")) ∧
      fs.filter (fun f => f.name = "main") =
        [⟨"main", TraceInject.claimedMainBody mainF traceF N⟩] ∧
      ∀ f ∈ fs, f.name ≠ "__trace_main" ∧ f.name ≠ "__trace_meta_main" := by
  refine ⟨_, ?_, rfl, ?_, ?_⟩
  · unfold TraceInject.inject_trace
    rw [TraceInject.find_func_of_filter _ _ _ hmain,
      TraceInject.find_func_of_filter _ _ _ htrace]
    simp only [bind, Except.bind, hstop]
    rw [if_neg (not_not_intro hrange)]
    unfold TraceInject.claimedMainBody
    rfl
  · exact TraceInject.filter_main_out prog.functions mainF _ hmain
  · intro f hf
    have := (List.mem_filter.mp hf).2
    constructor
    · intro hc
      simp [hc] at this
    · intro hc
      simp [hc] at this

/-- C8 witness: the shape theorem applied to the concrete example program
with stop index 1 (no label at position 1, so a fresh continuation label is
inserted). -/
theorem inject_trace_shape_witness :
    ∃ fs : List TraceInject.TFunc,
      TraceInject.inject_trace TraceInject.exProg = Except.ok ⟨fs⟩ ∧
      fs = (TraceInject.exProg.functions.map (fun f => if f.name = "main" then
          { f with instrs := (TraceInject.claimedMainBody
            ⟨"main", TraceInject.exMainInstrs⟩
            ⟨"__trace_main", TraceInject.exTraceInstrs⟩ 1) }
        else f)).filter
        (fun f => ¬ (f.name = "__trace_main" ∨ f.name = "__trace_meta_main")) ∧
      fs.filter (fun f => f.name = "main") =
        [⟨"main", (TraceInject.claimedMainBody
          ⟨"main", TraceInject.exMainInstrs⟩
          ⟨"__trace_main", TraceInject.exTraceInstrs⟩ 1)⟩] ∧
      ∀ f ∈ fs, f.name ≠ "__trace_main" ∧ f.name ≠ "__trace_meta_main" :=
  inject_trace_shape TraceInject.exProg
    ⟨"main", TraceInject.exMainInstrs⟩
    ⟨"__trace_main", TraceInject.exTraceInstrs⟩ 1
    (by decide) (by decide) (by decide) (by decide)

/-- Helper: the merge-induced order is reflexive (idempotence). -/
theorem Dataflow.fle_refl {L : Type} (merge : L → L → L)
    (hidem : ∀ x, merge x x = x) (x : L) : Dataflow.fle merge x x := hidem x

/-- Helper: the merge-induced order is transitive (associativity). -/
theorem Dataflow.fle_trans {L : Type} (merge : L → L → L)
    (hassoc : ∀ x y z, merge (merge x y) z = merge x (merge y z))
    {x y z : L} (hxy : Dataflow.fle merge x y) (hyz : Dataflow.fle merge y z) :
    Dataflow.fle merge x z := by
  unfold Dataflow.fle at *
  calc merge x z = merge (merge x y) z := by rw [hxy]
    _ = merge x (merge y z) := hassoc x y z
    _ = merge x y := by rw [hyz]
    _ = x := hxy

/-- Helper: top is the greatest element. -/
theorem Dataflow.fle_top {L : Type} (merge : L → L → L) (top : L)
    (htop : ∀ x, merge x top = x) (x : L) : Dataflow.fle merge x top := htop x

/-- Helper: a merge is below its left argument. -/
theorem Dataflow.merge_fle_left {L : Type} (merge : L → L → L)
    (hcomm : ∀ x y, merge x y = merge y x)
    (hassoc : ∀ x y z, merge (merge x y) z = merge x (merge y z))
    (hidem : ∀ x, merge x x = x) (x y : L) :
    Dataflow.fle merge (merge x y) x := by
  unfold Dataflow.fle
  calc merge (merge x y) x = merge x (merge y x) := hassoc x y x
    _ = merge x (merge x y) := by rw [hcomm y x]
    _ = merge (merge x x) y := (hassoc x x y).symm
    _ = merge x y := by rw [hidem x]

/-- Helper: a merge is below its right argument. -/
theorem Dataflow.merge_fle_right {L : Type} (merge : L → L → L)
    (hassoc : ∀ x y z, merge (merge x y) z = merge x (merge y z))
    (hidem : ∀ x, merge x x = x) (x y : L) :
    Dataflow.fle merge (merge x y) y := by
  unfold Dataflow.fle
  calc merge (merge x y) y = merge x (merge y y) := hassoc x y y
    _ = merge x y := by rw [hidem y]

/-- Helper: the merge is a lower bound of everything below both arguments. -/
theorem Dataflow.fle_merge {L : Type} (merge : L → L → L)
    (hassoc : ∀ x y z, merge (merge x y) z = merge x (merge y z))
    {z x y : L} (hzx : Dataflow.fle merge z x) (hzy : Dataflow.fle merge z y) :
    Dataflow.fle merge z (merge x y) := by
  unfold Dataflow.fle at *
  calc merge z (merge x y) = merge (merge z x) y := (hassoc z x y).symm
    _ = merge z y := by rw [hzx]
    _ = z := hzy

/-- Helper: merge is monotone in both arguments. -/
theorem Dataflow.merge_mono {L : Type} (merge : L → L → L)
    (hcomm : ∀ x y, merge x y = merge y x)
    (hassoc : ∀ x y z, merge (merge x y) z = merge x (merge y z))
    (hidem : ∀ x, merge x x = x) {x x2 y y2 : L}
    (hx : Dataflow.fle merge x x2) (hy : Dataflow.fle merge y y2) :
    Dataflow.fle merge (merge x y) (merge x2 y2) :=
  Dataflow.fle_merge merge hassoc
    (Dataflow.fle_trans merge hassoc
      (Dataflow.merge_fle_left merge hcomm hassoc hidem x y) hx)
    (Dataflow.fle_trans merge hassoc
      (Dataflow.merge_fle_right merge hassoc hidem x y) hy)

/-- Helper: the merge fold is monotone (pointwise below lists, below
accumulators). -/
theorem Dataflow.foldl_merge_mono {L : Type} (merge : L → L → L)
    (hcomm : ∀ x y, merge x y = merge y x)
    (hassoc : ∀ x y z, merge (merge x y) z = merge x (merge y z))
    (hidem : ∀ x, merge x x = x) :
    ∀ (xs ys : List L), List.Forall₂ (Dataflow.fle merge) xs ys →
      ∀ acc acc2, Dataflow.fle merge acc acc2 →
      Dataflow.fle merge (xs.foldl merge acc) (ys.foldl merge acc2) := by
  intro xs ys hf
  induction hf with
  | nil => intro acc acc2 h; exact h
  | cons hxy _ ih =>
    intro acc acc2 h
    exact ih _ _ (Dataflow.merge_mono merge hcomm hassoc hidem h hxy)

/-- Helper: meetMany is monotone. -/
theorem Dataflow.meetMany_mono {L : Type} (merge : L → L → L) (top : L)
    (hcomm : ∀ x y, merge x y = merge y x)
    (hassoc : ∀ x y z, merge (merge x y) z = merge x (merge y z))
    (hidem : ∀ x, merge x x = x) {xs ys : List L}
    (hf : List.Forall₂ (Dataflow.fle merge) xs ys) :
    Dataflow.fle merge (Dataflow.meetMany merge top xs)
      (Dataflow.meetMany merge top ys) :=
  Dataflow.foldl_merge_mono merge hcomm hassoc hidem xs ys hf top top
    (Dataflow.fle_refl merge hidem top)

/-- Helper: pointwise order on mapped lists. -/
theorem Dataflow.forall₂_map {α L : Type} (merge : L → L → L) (l : List α)
    (f g : α → L) (h : ∀ a ∈ l, Dataflow.fle merge (f a) (g a)) :
    List.Forall₂ (Dataflow.fle merge) (l.map f) (l.map g) := by
  induction l with
  | nil => exact List.Forall₂.nil
  | cons a l ih =>
    exact List.Forall₂.cons (h a (List.mem_cons_self _ _))
      (ih (fun a2 ha2 => h a2 (List.mem_cons_of_mem _ ha2)))

/-- Helper: the composite block transfer is monotone when every
per-instruction transfer is. -/
theorem Dataflow.applyTransfers_mono {L : Type} (merge : L → L → L) :
    ∀ (ts : List (L → L)),
      (∀ f ∈ ts, ∀ x y, Dataflow.fle merge x y →
        Dataflow.fle merge (f x) (f y)) →
      ∀ x y, Dataflow.fle merge x y →
      Dataflow.fle merge (Dataflow.applyTransfers ts x)
        (Dataflow.applyTransfers ts y) := by
  intro ts
  induction ts with
  | nil => intro _ x y h; exact h
  | cons f ts ih =>
    intro hts x y h
    exact ih (fun g hg => hts g (List.mem_cons_of_mem _ hg)) (f x) (f y)
      (hts f (List.mem_cons_self _ _) x y h)

/-- Helper: rank is monotone on the order. -/
theorem Dataflow.rank_le_of_fle {L : Type} (merge : L → L → L)
    (rank : L → Nat)
    (hrank : ∀ x y, Dataflow.fle merge x y → x ≠ y → rank x < rank y)
    {x y : L} (h : Dataflow.fle merge x y) : rank x ≤ rank y := by
  by_cases hxy : x = y
  · subst hxy; exact Nat.le_refl _
  · exact Nat.le_of_lt (hrank x y h hxy)

/-- Helper: updating one coordinate with a value of at most its rank does
not increase the total rank. -/
theorem Dataflow.sum_update_le {n : Nat} {L : Type} (f : Fin n → L)
    (g : L → Nat) (b : Fin n) (v : L) (hv : g v ≤ g (f b)) :
    (∑ x : Fin n, g (Function.update f b v x)) ≤ ∑ x : Fin n, g (f x) := by
  refine Finset.sum_le_sum ?_
  intro i _
  by_cases hib : i = b
  · subst hib; rw [Function.update_same]; exact hv
  · rw [Function.update_noteq hib]

/-- Helper: strictly decreasing one coordinate's rank strictly decreases
the total rank. -/
theorem Dataflow.sum_update_lt {n : Nat} {L : Type} (f : Fin n → L)
    (g : L → Nat) (b : Fin n) (v : L) (hv : g v < g (f b)) :
    (∑ x : Fin n, g (Function.update f b v x)) < ∑ x : Fin n, g (f x) := by
  refine Finset.sum_lt_sum (fun i _ => ?_) ⟨b, Finset.mem_univ b, ?_⟩
  · by_cases hib : i = b
    · subst hib; rw [Function.update_same]; exact Nat.le_of_lt hv
    · rw [Function.update_noteq hib]
  · rw [Function.update_same]; exact hv

/-- Helper: a pointwise implication between brokenness predicates bounds
the broken count. -/
theorem Dataflow.brokenCount_le {n : Nat} {L : Type} [DecidableEq L]
    (merge : L → L → L) (top : L) (dep : Fin n → List (Fin n))
    (s1 s2 : Dataflow.State n L)
    (h : ∀ b, Dataflow.brokenB merge top dep s1 b →
      Dataflow.brokenB merge top dep s2 b) :
    Dataflow.brokenCount merge top dep s1 ≤
      Dataflow.brokenCount merge top dep s2 := by
  refine Finset.card_le_card ?_
  intro b hb
  rw [Finset.mem_filter] at hb ⊢
  exact ⟨hb.1, h b hb.2⟩

/-- Helper: a pointwise implication plus one block broken before but not
after strictly decreases the broken count. -/
theorem Dataflow.brokenCount_lt {n : Nat} {L : Type} [DecidableEq L]
    (merge : L → L → L) (top : L) (dep : Fin n → List (Fin n))
    (s1 s2 : Dataflow.State n L) (b0 : Fin n)
    (h : ∀ b, Dataflow.brokenB merge top dep s1 b →
      Dataflow.brokenB merge top dep s2 b)
    (h1 : ¬ Dataflow.brokenB merge top dep s1 b0)
    (h2 : Dataflow.brokenB merge top dep s2 b0) :
    Dataflow.brokenCount merge top dep s1 <
      Dataflow.brokenCount merge top dep s2 := by
  refine Finset.card_lt_card ?_
  constructor
  · intro b hb
    rw [Finset.mem_filter] at hb ⊢
    exact ⟨hb.1, h b hb.2⟩
  · intro hsub
    have hb0 : b0 ∈ Finset.univ.filter
        (fun b => Dataflow.brokenB merge top dep s2 b) :=
      Finset.mem_filter.mpr ⟨Finset.mem_univ b0, h2⟩
    have := hsub hb0
    rw [Finset.mem_filter] at this
    exact h1 this.2

/-- Helper: the step equation once the queue head is known. -/
theorem Dataflow.step_eq {n : Nat} {L : Type} [DecidableEq L]
    (merge : L → L → L) (top : L) (ts : Fin n → List (L → L))
    (dep nbr : Fin n → List (Fin n)) (s : Dataflow.State n L)
    (b : Fin n) (rest : List (Fin n)) (hq : s.queue = b :: rest) :
    Dataflow.step merge top ts dep nbr s =
      (if (if (dep b).isEmpty then s.aF b
           else Dataflow.meetMany merge top ((dep b).map s.bF)) = s.aF b ∧
          Dataflow.applyTransfers (ts b)
            (if (dep b).isEmpty then s.aF b
             else Dataflow.meetMany merge top ((dep b).map s.bF)) = s.bF b then
        { s with queue := rest }
      else
        { aF := Function.update s.aF b
            (if (dep b).isEmpty then s.aF b
             else Dataflow.meetMany merge top ((dep b).map s.bF)),
          bF := Function.update s.bF b
            (Dataflow.applyTransfers (ts b)
              (if (dep b).isEmpty then s.aF b
               else Dataflow.meetMany merge top ((dep b).map s.bF))),
          queue := rest ++ nbr b }) := by
  unfold Dataflow.step
  rw [hq]

/-- Helper: one solver step preserves the invariant and strictly decreases
the lexicographic measure (broken count, total rank, queue length). -/
theorem Dataflow.step_analysis {n : Nat} {L : Type} [DecidableEq L]
    (merge : L → L → L) (top : L)
    (hcomm : ∀ x y, merge x y = merge y x)
    (hassoc : ∀ x y z, merge (merge x y) z = merge x (merge y z))
    (hidem : ∀ x, merge x x = x)
    (htop : ∀ x, merge x top = x)
    (ts : Fin n → List (L → L)) (dep nbr : Fin n → List (Fin n))
    (hmono : ∀ b, ∀ f ∈ ts b, ∀ x y, Dataflow.fle merge x y →
      Dataflow.fle merge (f x) (f y))
    (rank : L → Nat)
    (hrank : ∀ x y, Dataflow.fle merge x y → x ≠ y → rank x < rank y)
    (s : Dataflow.State n L) (hinv : Dataflow.Inv merge top ts dep s)
    (b : Fin n) (rest : List (Fin n)) (hq : s.queue = b :: rest) :
    Dataflow.Inv merge top ts dep (Dataflow.step merge top ts dep nbr s) ∧
    (Dataflow.brokenCount merge top dep (Dataflow.step merge top ts dep nbr s) <
        Dataflow.brokenCount merge top dep s ∨
      (Dataflow.brokenCount merge top dep (Dataflow.step merge top ts dep nbr s) =
          Dataflow.brokenCount merge top dep s ∧
        Dataflow.rankSum rank (Dataflow.step merge top ts dep nbr s) <
          Dataflow.rankSum rank s) ∨
      (Dataflow.brokenCount merge top dep (Dataflow.step merge top ts dep nbr s) =
          Dataflow.brokenCount merge top dep s ∧
        Dataflow.rankSum rank (Dataflow.step merge top ts dep nbr s) =
          Dataflow.rankSum rank s ∧
        (Dataflow.step merge top ts dep nbr s).queue.length <
          s.queue.length)) := by
  have hstep := Dataflow.step_eq merge top ts dep nbr s b rest hq
  by_cases hch :
      (if (dep b).isEmpty then s.aF b
       else Dataflow.meetMany merge top ((dep b).map s.bF)) = s.aF b ∧
      Dataflow.applyTransfers (ts b)
        (if (dep b).isEmpty then s.aF b
         else Dataflow.meetMany merge top ((dep b).map s.bF)) = s.bF b
  · -- no change: only the queue shrinks
    rw [hstep, if_pos hch]
    refine ⟨hinv, Or.inr (Or.inr ⟨rfl, rfl, ?_⟩)⟩
    rw [hq]
    exact Nat.lt_succ_self _
  · -- change: the facts at b are rewritten
    rw [hstep, if_neg hch]
    have hb_or : Dataflow.fle merge
        (if (dep b).isEmpty then s.aF b
         else Dataflow.meetMany merge top ((dep b).map s.bF)) (s.aF b) ∨
        Dataflow.brokenB merge top dep s b := by
      by_cases hde : (dep b).isEmpty
      · rw [if_pos hde]
        exact Or.inl (Dataflow.fle_refl merge hidem _)
      · rw [if_neg hde]
        by_cases hfl : Dataflow.fle merge
            (Dataflow.meetMany merge top ((dep b).map s.bF)) (s.aF b)
        · exact Or.inl hfl
        · exact Or.inr ⟨by simpa using hde, hfl⟩
    have hF1 : Dataflow.fle merge
        (Dataflow.applyTransfers (ts b)
          (if (dep b).isEmpty then s.aF b
           else Dataflow.meetMany merge top ((dep b).map s.bF))) (s.bF b) := by
      rcases hb_or with hAb | hbk
      · exact Dataflow.fle_trans merge hassoc
          (Dataflow.applyTransfers_mono merge (ts b) (hmono b) _ _ hAb)
          (hinv b).1
      · rw [(hinv b).2 hbk]
        exact Dataflow.fle_top merge top htop _
    set sN : Dataflow.State n L :=
      { aF := Function.update s.aF b
          (if (dep b).isEmpty then s.aF b
           else Dataflow.meetMany merge top ((dep b).map s.bF)),
        bF := Function.update s.bF b
          (Dataflow.applyTransfers (ts b)
            (if (dep b).isEmpty then s.aF b
             else Dataflow.meetMany merge top ((dep b).map s.bF))),
        queue := rest ++ nbr b } with hsN
    have hF2 : ∀ c, Dataflow.fle merge (sN.bF c) (s.bF c) := by
      intro c
      by_cases hcb : c = b
      · subst hcb
        rw [hsN]
        simp only [Function.update_same]
        exact hF1
      · rw [hsN]
        simp only [Function.update_noteq hcb]
        exact Dataflow.fle_refl merge hidem _
    have hF3 : ∀ c, Dataflow.fle merge
        (Dataflow.meetMany merge top ((dep c).map sN.bF))
        (Dataflow.meetMany merge top ((dep c).map s.bF)) := by
      intro c
      exact Dataflow.meetMany_mono merge top hcomm hassoc hidem
        (Dataflow.forall₂_map merge (dep c) sN.bF s.bF (fun a _ => hF2 a))
    have hF5 : ¬ Dataflow.brokenB merge top dep sN b := by
      rintro ⟨hdep, hnfle⟩
      apply hnfle
      have hab : sN.aF b =
          (if (dep b).isEmpty then s.aF b
           else Dataflow.meetMany merge top ((dep b).map s.bF)) := by
        rw [hsN]; simp only [Function.update_same]
      rw [hab, if_neg (by simpa using hdep)]
      exact hF3 b
    have hF6 : ∀ c, Dataflow.brokenB merge top dep sN c →
        Dataflow.brokenB merge top dep s c := by
      intro c hc
      by_cases hcb : c = b
      · subst hcb; exact absurd hc hF5
      · rcases hc with ⟨hdep, hnfle⟩
        refine ⟨hdep, fun hfl => hnfle ?_⟩
        have hac : sN.aF c = s.aF c := by
          rw [hsN]; simp only [Function.update_noteq hcb]
        rw [hac]
        exact Dataflow.fle_trans merge hassoc (hF3 c) hfl
    have hInvN : Dataflow.Inv merge top ts dep sN := by
      intro c
      constructor
      · by_cases hcb : c = b
        · subst hcb
          rw [hsN]
          simp only [Function.update_same]
          exact Dataflow.fle_refl merge hidem _
        · rw [hsN]
          simp only [Function.update_noteq hcb]
          exact (hinv c).1
      · intro hc
        by_cases hcb : c = b
        · subst hcb; exact absurd hc hF5
        · have := (hinv c).2 (hF6 c hc)
          rw [hsN]
          simp only [Function.update_noteq hcb]
          exact this
    refine ⟨hInvN, ?_⟩
    by_cases hbk : Dataflow.brokenB merge top dep s b
    · exact Or.inl (Dataflow.brokenCount_lt merge top dep sN s b hF6 hF5 hbk)
    · have hAb : Dataflow.fle merge
          (if (dep b).isEmpty then s.aF b
           else Dataflow.meetMany merge top ((dep b).map s.bF)) (s.aF b) := by
        rcases hb_or with h | h
        · exact h
        · exact absurd h hbk
      have hrkA : (∑ x : Fin n, rank (sN.aF x)) ≤ ∑ x : Fin n, rank (s.aF x) := by
        rw [hsN]
        exact Dataflow.sum_update_le s.aF rank b _
          (Dataflow.rank_le_of_fle merge rank hrank hAb)
      have hrkB : (∑ x : Fin n, rank (sN.bF x)) ≤ ∑ x : Fin n, rank (s.bF x) := by
        rw [hsN]
        exact Dataflow.sum_update_le s.bF rank b _
          (Dataflow.rank_le_of_fle merge rank hrank hF1)
      have hstrict : Dataflow.rankSum rank sN < Dataflow.rankSum rank s := by
        unfold Dataflow.rankSum
        rcases not_and_or.mp hch with hne | hne
        · have : (∑ x : Fin n, rank (sN.aF x)) < ∑ x : Fin n, rank (s.aF x) := by
            rw [hsN]
            exact Dataflow.sum_update_lt s.aF rank b _
              (hrank _ _ hAb hne)
          exact Nat.add_lt_add_of_lt_of_le this hrkB
        · have : (∑ x : Fin n, rank (sN.bF x)) < ∑ x : Fin n, rank (s.bF x) := by
            rw [hsN]
            exact Dataflow.sum_update_lt s.bF rank b _
              (hrank _ _ hF1 hne)
          exact Nat.add_lt_add_of_le_of_lt hrkA this
      rcases Nat.lt_or_ge (Dataflow.brokenCount merge top dep sN)
          (Dataflow.brokenCount merge top dep s) with hlt | hge
      · exact Or.inl hlt
      · have hle := Dataflow.brokenCount_le merge top dep sN s hF6
        exact Or.inr (Or.inl ⟨Nat.le_antisymm hle hge, hstrict⟩)

/-- Helper: with an empty worklist the solver step is the identity. -/
theorem Dataflow.step_of_empty {n : Nat} {L : Type} [DecidableEq L]
    (merge : L → L → L) (top : L) (ts : Fin n → List (L → L))
    (dep nbr : Fin n → List (Fin n)) (s : Dataflow.State n L)
    (hq : s.queue = []) : Dataflow.step merge top ts dep nbr s = s := by
  unfold Dataflow.step
  rw [hq]

/-- Helper: invariant states reach an empty worklist, by well-founded
descent on (broken count, total rank, queue length). -/
theorem Dataflow.terminates_of_inv {n : Nat} {L : Type} [DecidableEq L]
    (merge : L → L → L) (top : L)
    (hcomm : ∀ x y, merge x y = merge y x)
    (hassoc : ∀ x y z, merge (merge x y) z = merge x (merge y z))
    (hidem : ∀ x, merge x x = x)
    (htop : ∀ x, merge x top = x)
    (ts : Fin n → List (L → L)) (dep nbr : Fin n → List (Fin n))
    (hmono : ∀ b, ∀ f ∈ ts b, ∀ x y, Dataflow.fle merge x y →
      Dataflow.fle merge (f x) (f y))
    (rank : L → Nat)
    (hrank : ∀ x y, Dataflow.fle merge x y → x ≠ y → rank x < rank y)
    (s : Dataflow.State n L) (hinv : Dataflow.Inv merge top ts dep s) :
    ∃ k, (Dataflow.runFor merge top ts dep nbr k s).queue = [] := by
  suffices H : ∀ c r q (s2 : Dataflow.State n L),
      Dataflow.Inv merge top ts dep s2 →
      Dataflow.brokenCount merge top dep s2 = c →
      Dataflow.rankSum rank s2 = r → s2.queue.length = q →
      ∃ k, (Dataflow.runFor merge top ts dep nbr k s2).queue = [] by
    exact H _ _ _ s hinv rfl rfl rfl
  intro c
  induction c using Nat.strong_induction_on with
  | _ c ihc =>
    intro r
    induction r using Nat.strong_induction_on with
    | _ r ihr =>
      intro q
      induction q using Nat.strong_induction_on with
      | _ q ihq =>
        intro s2 hinv2 hc hr hql
        cases hq : s2.queue with
        | nil => exact ⟨0, hq⟩
        | cons b rest =>
          obtain ⟨hinvN, hdec⟩ := Dataflow.step_analysis merge top hcomm
            hassoc hidem htop ts dep nbr hmono rank hrank s2 hinv2 b rest hq
          rcases hdec with h1 | ⟨h2a, h2b⟩ | ⟨h3a, h3b, h3c⟩
          · obtain ⟨k, hk⟩ := ihc _ (hc ▸ h1) _ _
              (Dataflow.step merge top ts dep nbr s2) hinvN rfl rfl rfl
            exact ⟨k + 1, hk⟩
          · obtain ⟨k, hk⟩ := ihr _ (hr ▸ h2b) _
              (Dataflow.step merge top ts dep nbr s2) hinvN
              (h2a.trans hc) rfl rfl
            exact ⟨k + 1, hk⟩
          · obtain ⟨k, hk⟩ := ihq _ (hql ▸ h3c)
              (Dataflow.step merge top ts dep nbr s2) hinvN
              (h3a.trans hc) (h3b.trans hr) rfl
            exact ⟨k + 1, hk⟩

/-- C9: the FIFO worklist solver terminates for every dataflow
instantiation whose merge is commutative, associative and idempotent with
greatest element top (the initial fact), whose per-instruction transfer
functions are monotone with respect to the merge-induced order, and whose
lattice has finite height (witnessed by a rank function strictly decreasing
down the order).  The solver runs from top-initialized transfer-side facts,
any seeded meet-side facts, and any initial worklist — covering DFA.run's
initialization with entry/exit seeds in both directions — and reaches a
state whose worklist is empty and on which a further step changes nothing. -/
theorem dfa_solver_terminates {n : Nat} {L : Type} [DecidableEq L]
    (merge : L → L → L) (top : L)
    (hcomm : ∀ x y, merge x y = merge y x)
    (hassoc : ∀ x y z, merge (merge x y) z = merge x (merge y z))
    (hidem : ∀ x, merge x x = x)
    (htop : ∀ x, merge x top = x)
    (ts : Fin n → List (L → L)) (dep nbr : Fin n → List (Fin n))
    (hmono : ∀ b, ∀ f ∈ ts b, ∀ x y, Dataflow.fle merge x y →
      Dataflow.fle merge (f x) (f y))
    (rank : L → Nat)
    (hrank : ∀ x y, Dataflow.fle merge x y → x ≠ y → rank x < rank y)
    (aF0 : Fin n → L) (q0 : List (Fin n)) :
    ∃ k, (Dataflow.runFor merge top ts dep nbr k
        ⟨aF0, fun _ => top, q0⟩).queue = [] ∧
      Dataflow.step merge top ts dep nbr
          (Dataflow.runFor merge top ts dep nbr k ⟨aF0, fun _ => top, q0⟩) =
        Dataflow.runFor merge top ts dep nbr k ⟨aF0, fun _ => top, q0⟩ := by
  have hinv : Dataflow.Inv merge top ts dep ⟨aF0, fun _ => top, q0⟩ := by
    intro b
    constructor
    · exact Dataflow.fle_top merge top htop _
    · intro _; rfl
  obtain ⟨k, hk⟩ := Dataflow.terminates_of_inv merge top hcomm hassoc hidem
    htop ts dep nbr hmono rank hrank ⟨aF0, fun _ => top, q0⟩ hinv
  exact ⟨k, hk, Dataflow.step_of_empty merge top ts dep nbr _ hk⟩

/-- C9 witness: the termination theorem instantiated on a one-block
self-loop CFG over the two-point lattice (Bool with merge = and, top =
true), identity block transfer (no instructions), a bottom-seeded meet-side
fact and the initial worklist [0]. -/
theorem dfa_solver_terminates_witness :
    ∃ k, (Dataflow.runFor (fun x y : Bool => x && y) true
        (fun _ : Fin 1 => []) (fun _ => [0]) (fun _ => [0]) k
        ⟨fun _ => false, fun _ => true, [0]⟩).queue = [] ∧
      Dataflow.step (fun x y : Bool => x && y) true
          (fun _ : Fin 1 => []) (fun _ => [0]) (fun _ => [0])
          (Dataflow.runFor (fun x y : Bool => x && y) true
            (fun _ : Fin 1 => []) (fun _ => [0]) (fun _ => [0]) k
            ⟨fun _ => false, fun _ => true, [0]⟩) =
        Dataflow.runFor (fun x y : Bool => x && y) true
          (fun _ : Fin 1 => []) (fun _ => [0]) (fun _ => [0]) k
          ⟨fun _ => false, fun _ => true, [0]⟩ :=
  dfa_solver_terminates (fun x y : Bool => x && y) true
    (by decide) (by decide) (by decide) (by decide)
    (fun _ => []) (fun _ => [0]) (fun _ => [0])
    (fun _ f hf => absurd hf (List.not_mem_nil f))
    (fun x => if x then 1 else 0)
    (by unfold Dataflow.fle; decide)
    (fun _ => false) [0]
